import Mathlib

/-!
# Guest console transport (`console.c`)

A shallow embedding of `console_write` and `console_flush` from `console.c`,
together with the shared output ring they operate on and the remote consumer
that drains it.

* The shared page is a record of the two rings and their four counters.
  `XENCONS_RING_IDX` is `uint32_t`; counters are naturals below `2 ^ 32` and
  every update is reduced modulo `2 ^ 32`.
* `sizeof(console->out)` comes from a header outside the repository and is
  the parameter `C` of every definition that uses it.
* `console_write` and `console_flush` are small-step machines whose steps are
  the individual accesses to shared memory and the hypercalls, so that the
  consumer can be interleaved between any two of them.
* A run alternates one program step with any number of consumer steps chosen
  by an environment strategy.
-/

namespace Console

set_option maxRecDepth 20000

/-! ## Shared page and observable world -/

/-- Modulus of `XENCONS_RING_IDX` arithmetic, `2 ^ 32`: the type is `uint32_t`
in the Xen console header, which is outside the repository. -/
def IDX_MOD : Nat := 4294967296

/-- The shared console page `struct xencons_interface` (declared in the Xen
console header, outside the repository): the input ring, the output ring and
the four ring counters.  Bytes are naturals. -/
structure xencons_interface where
  in_ring : List Nat
  out : List Nat
  in_cons : Nat
  in_prod : Nat
  out_cons : Nat
  out_prod : Nat
deriving DecidableEq

/-- Everything outside the running function that the claims observe: the page
`console` points to, the ports of the `EVTCHNOP_send` hypercalls made so far,
the number of `SCHEDOP_yield` hypercalls made so far, and the bytes the remote
consumer has read so far, oldest first. -/
structure World where
  ring : xencons_interface
  sent : List Nat
  yields : Nat
  seen : List Nat
deriving DecidableEq

/-- Modelled from the spec: `MASK_XENCONS_IDX(idx, ring)` is declared in the
Xen console header, outside the repository.  The spec puts logical position
`i` at physical offset `i mod C`; the macro computes that offset by masking,
`idx & (sizeof(ring) - 1)`, which is `idx mod C` when `C`, standing for
`sizeof(ring)`, is a power of two. -/
def MASK_XENCONS_IDX (idx C : Nat) : Nat := idx &&& (C - 1)

/-- The value of `console->out_prod - console->out_cons` in `uint32_t`
arithmetic: the number of bytes produced and not yet consumed. -/
def pending (r : xencons_interface) : Nat :=
  (r.out_prod + IDX_MOD - r.out_cons) % IDX_MOD

/-- Conversion of a value to `int` (32-bit two-complement). -/
def toInt32 (x : Int) : Int := (x + 2147483648) % 4294967296 - 2147483648

/-- The byte `*message`: the buffer a `char *` points to is the listed bytes
followed by the terminating NUL. -/
def deref : List Nat → Nat
  | [] => 0
  | b :: _ => b

/-- The C string held by a buffer: the bytes before the first NUL. -/
def cstr : List Nat → List Nat
  | [] => []
  | b :: bs => if b = 0 then [] else b :: cstr bs

/-- The length of the C string held by a buffer. -/
def strlen (m : List Nat) : Nat := (cstr m).length

/-! ## The remote consumer -/

/-- Modelled from the spec: the remote consumer, which is not part of the
repository.  One consumer step: when something is unconsumed
(`out_cons ≠ out_prod`) it reads the byte at offset `out_cons mod C` and
advances `out_cons` by one; otherwise it does nothing, so it never passes
`out_prod`. -/
def drain (C : Nat) (w : World) : World :=
  if w.ring.out_cons = w.ring.out_prod then w
  else
    { w with
      seen := w.seen ++ [w.ring.out.getD (w.ring.out_cons % C) 0]
      ring := { w.ring with out_cons := (w.ring.out_cons + 1) % IDX_MOD } }

/-- The consumer takes `n` steps in a row. -/
def drains (C : Nat) : Nat → World → World
  | 0, w => w
  | n + 1, w => drains C n (drain C w)

/-! ## `console_write` -/

/-- Control points of `console_write`. -/
inductive WPc where
  /-- the test `*message != '\0'` of the outer loop (line 39) -/
  | head
  /-- `data = console->out_prod - console->out_cons` (line 44) -/
  | poll
  /-- `HYPERVISOR_event_channel_op(EVTCHNOP_send, &event)` in the loop (line 45) -/
  | send
  /-- the test `data >= sizeof(console->out)` (line 47) -/
  | check
  /-- `console->out[ring_index] = *message` (lines 48 and 49) -/
  | store
  /-- `console->out_prod++; length++; message++` (lines 51 to 53) -/
  | incr
  /-- the send after the loop (line 55) -/
  | final
  /-- `return length` has been executed -/
  | done
  /-- the store was outside `out` -/
  | fault
deriving DecidableEq

/-- A configuration of a running `console_write`: control point, the buffer
`message` points to, the locals `length`, `event.port` and `data`, and the
world. -/
structure WriteCfg where
  pc : WPc
  message : List Nat
  length : Int
  port : Nat
  data : Nat
  w : World
deriving DecidableEq

/-- Entry of `console_write(message)`: `event.port = console_evt` and
`length = 0` (lines 36 to 38).  `data` is assigned before it is read. -/
def console_write_entry (console_evt : Nat) (message : List Nat) (w : World) : WriteCfg :=
  { pc := .head, message := message, length := 0, port := console_evt, data := 0, w := w }

/-- One step of `console_write`.  `C` is `sizeof(console->out)`. -/
def wstep (C : Nat) (c : WriteCfg) : WriteCfg :=
  match c.pc with
  | .head =>
    if deref c.message ≠ 0 then { c with pc := .poll } else { c with pc := .final }
  | .poll => { c with pc := .send, data := pending c.w.ring }
  | .send => { c with pc := .check, w := { c.w with sent := c.w.sent ++ [c.port] } }
  | .check => if C ≤ c.data then { c with pc := .poll } else { c with pc := .store }
  | .store =>
    let ring_index : Int := toInt32 (MASK_XENCONS_IDX c.w.ring.out_prod C)
    if 0 ≤ ring_index ∧ ring_index.toNat < c.w.ring.out.length then
      { c with
        pc := .incr
        w := { c.w with
          ring := { c.w.ring with
            out := c.w.ring.out.set ring_index.toNat (deref c.message) } } }
    else { c with pc := .fault }
  | .incr =>
    { c with
      pc := .head
      w := { c.w with ring := { c.w.ring with out_prod := (c.w.ring.out_prod + 1) % IDX_MOD } }
      length := toInt32 (c.length + 1)
      message := c.message.tail }
  | .final => { c with pc := .done, w := { c.w with sent := c.w.sent ++ [c.port] } }
  | .done => c
  | .fault => c

/-- One round: a step of `console_write` followed by `e` consumer steps. -/
def wround (C : Nat) (e : Nat) (c : WriteCfg) : WriteCfg :=
  { wstep C c with w := drains C e (wstep C c).w }

/-- A run of `console_write` against an environment: in round `i` the program
takes one step from configuration `c` and the consumer then takes `env i c`
steps.  Every interleaving of program steps and consumer steps that starts
with a program step is `wrun C env n` for some `env` and `n`. -/
def wrun (C : Nat) (env : Nat → WriteCfg → Nat) : Nat → WriteCfg → WriteCfg
  | 0, c => c
  | n + 1, c => wround C (env n (wrun C env n c)) (wrun C env n c)

/-- The environment of a consumer stub that reacts to notifications only:
after each `EVTCHNOP_send` it consumes `stub i r` bytes (as far as bytes are
available), where `i` is the number of notifications sent before this one
and `r` the ring. -/
def notifyStub (stub : Nat → xencons_interface → Nat) : Nat → WriteCfg → Nat :=
  fun _ c => if c.pc = .send ∨ c.pc = .final then stub c.w.sent.length c.w.ring else 0

/-- The caller making a sequence of `console_write` calls (as `start_kernel`
does): the call in progress and the messages of the calls still to make. -/
structure Session where
  cur : WriteCfg
  todo : List (List Nat)
deriving DecidableEq

/-- A session before its first call. -/
def Session.start (console_evt : Nat) (msgs : List (List Nat)) (w : World) : Session :=
  { cur := { pc := .done, message := [], length := 0, port := console_evt, data := 0, w := w }
    todo := msgs }

/-- One step of a session: when the call in progress has returned the next
call is entered, otherwise the call in progress takes a step. -/
def sstep (C : Nat) (s : Session) : Session :=
  if s.cur.pc = .done then
    match s.todo with
    | [] => s
    | m :: ms => { cur := console_write_entry s.cur.port m s.cur.w, todo := ms }
  else { s with cur := wstep C s.cur }

/-- One round of a session: a step followed by `e` consumer steps. -/
def sround (C : Nat) (e : Nat) (s : Session) : Session :=
  { sstep C s with cur := { (sstep C s).cur with w := drains C e (sstep C s).cur.w } }

/-- A run of a session against an environment, as `wrun`. -/
def srun (C : Nat) (env : Nat → Session → Nat) : Nat → Session → Session
  | 0, s => s
  | n + 1, s => sround C (env n (srun C env n s)) (srun C env n s)

/-! ## `console_flush` -/

/-- Control points of `console_flush`. -/
inductive FPc where
  /-- the test `console->out_cons < console->out_prod` (line 61) -/
  | check
  /-- `HYPERVISOR_sched_op(SCHEDOP_yield, 0)` (line 63) -/
  | sched
  /-- the function has returned -/
  | done
deriving DecidableEq

/-- A configuration of a running `console_flush`. -/
structure FlushCfg where
  pc : FPc
  w : World
deriving DecidableEq

/-- Entry of `console_flush()`. -/
def console_flush_entry (w : World) : FlushCfg := { pc := .check, w := w }

/-- One step of `console_flush`. -/
def fstep (c : FlushCfg) : FlushCfg :=
  match c.pc with
  | .check =>
    if c.w.ring.out_cons < c.w.ring.out_prod then { c with pc := .sched }
    else { c with pc := .done }
  | .sched => { pc := .check, w := { c.w with yields := c.w.yields + 1 } }
  | .done => c

/-- One round: a step of `console_flush` followed by `e` consumer steps. -/
def fround (C : Nat) (e : Nat) (c : FlushCfg) : FlushCfg :=
  { fstep c with w := drains C e (fstep c).w }

/-- A run of `console_flush` against an environment, as `wrun`. -/
def frun (C : Nat) (env : Nat → FlushCfg → Nat) : Nat → FlushCfg → FlushCfg
  | 0, c => c
  | n + 1, c => fround C (env n (frun C env n c)) (frun C env n c)

/-- The environment of a consumer stub that reacts to yields only: during
each `SCHEDOP_yield` it consumes `stub i r` bytes (as far as bytes are
available), where `i` is the number of yields made before this one and `r`
the ring. -/
def yieldStub (stub : Nat → xencons_interface → Nat) : Nat → FlushCfg → Nat :=
  fun _ c => if c.pc = .sched then stub c.w.yields c.w.ring else 0

/-- The world after `k` yields answered by the stub, with nothing else
happening in between. -/
def afterYields (C : Nat) (stub : Nat → xencons_interface → Nat) : Nat → World → World
  | 0, w => w
  | k + 1, w =>
    afterYields C stub k (drains C (stub w.yields w.ring) { w with yields := w.yields + 1 })

/-- Number of rounds among the first `n` of a run of `console_flush` in which
the program step was the test of line 61 finding `out_cons < out_prod`. -/
def blockedChecks (C : Nat) (env : Nat → FlushCfg → Nat) (c : FlushCfg) : Nat → Nat
  | 0 => 0
  | n + 1 =>
    blockedChecks C env c n +
      (if (frun C env n c).pc = .check ∧
          (frun C env n c).w.ring.out_cons < (frun C env n c).w.ring.out_prod then 1 else 0)

/-! ## `console_init` -/

/-- The fields of `start_info_t` that `console_init` reads:
`start->console.domU.mfn` and `start->console.domU.evtchn`. -/
structure start_info where
  mfn : Nat
  evtchn : Nat
deriving DecidableEq

/-- The globals of `console.c`: the pointer `console` (an address) and the
port `console_evt`. -/
structure Globals where
  console : Nat
  console_evt : Nat
deriving DecidableEq

/-- The function `console_init(start)`: the returned value, the globals it
sets and the world it leaves.  `machine_to_phys_mapping` is the translation
table and `text` the address of `_text`; the shift and the sum are in
`unsigned long` (64-bit) arithmetic. -/
def console_init (machine_to_phys_mapping : Nat → Nat) (text : Nat) (start : start_info)
    (w : World) : Int × Globals × World :=
  (0,
    { console :=
        ((machine_to_phys_mapping start.mfn <<< 12) % 18446744073709551616 + text) %
          18446744073709551616
      console_evt := start.evtchn },
    w)

/-! ## Predicates used in the statements -/

/-- The size of the output ring is a power of two not above `2 ^ 31`, so that
masking with `C - 1` selects an offset and `C` is a value of `uint32_t`. -/
def SizeOK (C : Nat) : Prop := ∃ k, k ≤ 31 ∧ C = 2 ^ k

/-- The page is well formed for a ring of size `C`: `out` has `C` cells and
the two output counters are values of `uint32_t`. -/
def RingWF (C : Nat) (r : xencons_interface) : Prop :=
  r.out.length = C ∧ r.out_prod < IDX_MOD ∧ r.out_cons < IDX_MOD

/-- The bytes at the `n` logical positions from `s` on, oldest first. -/
def contentFrom (C : Nat) (out : List Nat) : Nat → Nat → List Nat
  | _, 0 => []
  | s, n + 1 => out.getD (s % C) 0 :: contentFrom C out ((s + 1) % IDX_MOD) n

/-- The bytes produced and not yet consumed, oldest first. -/
def content (C : Nat) (r : xencons_interface) : List Nat :=
  contentFrom C r.out r.out_cons (pending r)

/-- Invariant of a running `console_write`, stable under consumer steps. -/
def WInv (C : Nat) (c : WriteCfg) : Prop :=
  RingWF C c.w.ring ∧ pending c.w.ring ≤ C ∧
  match c.pc with
  | .head => True
  | .poll => deref c.message ≠ 0
  | .send => deref c.message ≠ 0 ∧ pending c.w.ring ≤ c.data
  | .check => deref c.message ≠ 0 ∧ pending c.w.ring ≤ c.data
  | .store => deref c.message ≠ 0 ∧ pending c.w.ring < C
  | .incr => deref c.message ≠ 0 ∧ pending c.w.ring < C ∧
      c.w.ring.out.getD (c.w.ring.out_prod % C) 0 = deref c.message
  | .final => deref c.message = 0
  | .done => deref c.message = 0
  | .fault => False

/-- The concatenation of the C strings of a sequence of messages, in call
order. -/
def cstrs : List (List Nat) → List Nat
  | [] => []
  | m :: ms => cstr m ++ cstrs ms

/-- Number of rounds among the first `n` of a run in which the program step
was the test of line 47 finding the ring full (`data >= sizeof(out)`): the
full-ring poll iterations. -/
def fullPolls (C : Nat) (env : Nat → WriteCfg → Nat) (c : WriteCfg) : Nat → Nat
  | 0 => 0
  | n + 1 =>
    fullPolls C env c n +
      (if (wrun C env n c).pc = .check ∧ C ≤ (wrun C env n c).data then 1 else 0)

/-- Bytes read so far, then the bytes in the ring, then the bytes of the
current message still to be pushed. -/
def stream (C : Nat) (c : WriteCfg) : List Nat :=
  c.w.seen ++ content C c.w.ring ++ cstr c.message

/-- Whether the notification of the current poll iteration, or the final one,
has been sent at a control point: `1` if so. -/
def sentExtra : WPc → Nat
  | .check => 1
  | .store => 1
  | .incr => 1
  | .done => 1
  | .fault => 1
  | _ => 0

/-- What a control point of `console_write` says about `*message`. -/
def derefAt : WPc → Nat → Prop
  | .head, _ => True
  | .fault, _ => True
  | .final, b => b = 0
  | .done, b => b = 0
  | _, b => b ≠ 0

/-- Bookkeeping invariant of a call `console_write(m0)` entered in world `w0`
with `console_evt = port`, after `k` full-ring poll iterations: the locals,
`out_prod` and the notifications sent, in terms of the number of bytes
pushed so far. -/
def Cnt (m0 : List Nat) (w0 : World) (port : Nat) (k : Nat) (c : WriteCfg) : Prop :=
  c.port = port ∧ strlen c.message ≤ strlen m0 ∧
  c.length = toInt32 ((strlen m0 - strlen c.message : Nat) : Int) ∧
  c.w.ring.out_prod = (w0.ring.out_prod + (strlen m0 - strlen c.message)) % IDX_MOD ∧
  c.w.sent = w0.sent ++
    List.replicate (strlen m0 - strlen c.message + k + sentExtra c.pc) port ∧
  derefAt c.pc (deref c.message)

/-- The control point of `console_write` after `i` steps of one pass through
the loop body that does not find the ring full. -/
def pcOf : Nat → WPc
  | 0 => .head
  | 1 => .poll
  | 2 => .send
  | 3 => .check
  | 4 => .store
  | _ => .incr

/-! ## Concrete scenarios -/

/-- An empty ring of capacity 8: `out_prod = out_cons = 0`. -/
def ring8 : xencons_interface :=
  { in_ring := [], out := [0, 0, 0, 0, 0, 0, 0, 0], in_cons := 0, in_prod := 0,
    out_cons := 0, out_prod := 0 }

/-- A world around the empty ring of capacity 8 in which nothing has
happened yet. -/
def world8 : World := { ring := ring8, sent := [], yields := 0, seen := [] }

/-- The bytes of `"HELLOWORLD"`. -/
def HELLOWORLD : List Nat := [72, 69, 76, 76, 79, 87, 79, 82, 76, 68]

/-- A ring of capacity 8 holding one unconsumed byte, `'x'`. -/
def ring8x : xencons_interface :=
  { in_ring := [], out := [120, 0, 0, 0, 0, 0, 0, 0], in_cons := 0, in_prod := 0,
    out_cons := 0, out_prod := 1 }

/-- A world around `ring8x` in which the consumer has read nothing. -/
def world8x : World := { ring := ring8x, sent := [], yields := 0, seen := [] }

/-- A ring of capacity 8 holding three unconsumed bytes, `"abc"`. -/
def ring8abc : xencons_interface :=
  { in_ring := [], out := [97, 98, 99, 0, 0, 0, 0, 0], in_cons := 0, in_prod := 0,
    out_cons := 0, out_prod := 3 }

/-- A world around `ring8abc` in which the consumer has read nothing. -/
def world8abc : World := { ring := ring8abc, sent := [], yields := 0, seen := [] }

/-- A ring of capacity 8 with `out_prod = out_cons = 5`. -/
def ring8at5 : xencons_interface :=
  { in_ring := [], out := [72, 69, 76, 76, 79, 0, 0, 0], in_cons := 0, in_prod := 0,
    out_cons := 5, out_prod := 5 }

/-- A world around `ring8at5`. -/
def world8at5 : World :=
  { ring := ring8at5, sent := [7, 7, 7, 7, 7, 7], yields := 0, seen := [72, 69, 76, 76, 79] }

/-- An empty ring of capacity 8 whose counters are about to wrap:
`out_prod = out_cons = 2 ^ 32 - 1`. -/
def ring8edge : xencons_interface :=
  { in_ring := [], out := [0, 0, 0, 0, 0, 0, 0, 0], in_cons := 0, in_prod := 0,
    out_cons := 4294967295, out_prod := 4294967295 }

/-- A world around `ring8edge` in which nothing has happened yet. -/
def world8edge : World := { ring := ring8edge, sent := [], yields := 0, seen := [] }

/-- A ring of capacity 8 whose `out_prod` has wrapped to 0 while `out_cons`
is still `2 ^ 32 - 3`: three bytes, `"abc"`, are unconsumed. -/
def ring8wrapped : xencons_interface :=
  { in_ring := [], out := [0, 0, 0, 0, 0, 97, 98, 99], in_cons := 0, in_prod := 0,
    out_cons := 4294967293, out_prod := 0 }

/-- A configuration of `console_write` at the poll step on `ring8wrapped`. -/
def pollWrapped : WriteCfg :=
  { pc := .poll, message := [100], length := 0, port := 7, data := 0,
    w := { ring := ring8wrapped, sent := [], yields := 0, seen := [] } }

/-- A ring record whose counters are those of true counters `P = 2 ^ 32` and
`Q = 0`. -/
def ringFull32 : xencons_interface :=
  { ring8 with out_prod := 4294967296 % IDX_MOD, out_cons := 0 % IDX_MOD }

/-- A configuration of `console_write` at the test of line 47 with the value
of `data` computed on `ringFull32`. -/
def checkFull32 : WriteCfg :=
  { pc := .check, message := [97], length := 0, port := 7, data := pending ringFull32,
    w := { ring := ringFull32, sent := [7], yields := 0, seen := [] } }

/-- Modelled from the spec: the consumer stub of the example scenario taken
at its word.  One unguarded consumer step: it reads the byte at offset
`out_cons mod C` and advances `out_cons` by one whether or not a byte is
unconsumed. -/
def gulp (C : Nat) (w : World) : World :=
  { w with
    seen := w.seen ++ [w.ring.out.getD (w.ring.out_cons % C) 0]
    ring := { w.ring with out_cons := (w.ring.out_cons + 1) % IDX_MOD } }

/-- The unguarded consumer takes `n` steps in a row. -/
def gulps (C : Nat) : Nat → World → World
  | 0, w => w
  | n + 1, w => gulps C n (gulp C w)

/-- One round against the stub that advances `out_cons` by `k` at every
notification: a step of `console_write`, followed by `k` unguarded consumer
steps when the step was an `EVTCHNOP_send`. -/
def wroundRaw (C : Nat) (k : Nat) (c : WriteCfg) : WriteCfg :=
  if c.pc = .send ∨ c.pc = .final then { wstep C c with w := gulps C k (wstep C c).w }
  else wstep C c

/-- A run of `console_write` against the stub that advances `out_cons` by `k`
at every notification. -/
def wrunRaw (C : Nat) (k : Nat) : Nat → WriteCfg → WriteCfg
  | 0, c => c
  | n + 1, c => wroundRaw C k (wrunRaw C k n c)

/-! ## The consumer: basic facts -/

theorem drain_out (C : Nat) (w : World) : (drain C w).ring.out = w.ring.out := by
  unfold drain; split <;> rfl

theorem drain_out_prod (C : Nat) (w : World) :
    (drain C w).ring.out_prod = w.ring.out_prod := by
  unfold drain; split <;> rfl

theorem drain_sent (C : Nat) (w : World) : (drain C w).sent = w.sent := by
  unfold drain; split <;> rfl

theorem drain_yields (C : Nat) (w : World) : (drain C w).yields = w.yields := by
  unfold drain; split <;> rfl

theorem drain_wf (C : Nat) (w : World) (h : RingWF C w.ring) : RingWF C (drain C w).ring := by
  obtain ⟨h1, h2, _⟩ := h
  unfold drain; split
  · exact ⟨h1, h2, by assumption⟩
  · refine ⟨h1, h2, ?_⟩
    simp only [IDX_MOD]
    omega

theorem drain_pending_le (C : Nat) (w : World) (h : RingWF C w.ring) :
    pending (drain C w).ring ≤ pending w.ring := by
  obtain ⟨_, h2, h3⟩ := h
  unfold drain; split
  · exact le_refl _
  · rename_i hne
    simp only [pending, IDX_MOD] at *
    omega

theorem drains_out (C : Nat) (n : Nat) (w : World) : (drains C n w).ring.out = w.ring.out := by
  induction n generalizing w with
  | zero => rfl
  | succ n ih => simp only [drains]; rw [ih, drain_out]

theorem drains_out_prod (C : Nat) (n : Nat) (w : World) :
    (drains C n w).ring.out_prod = w.ring.out_prod := by
  induction n generalizing w with
  | zero => rfl
  | succ n ih => simp only [drains]; rw [ih, drain_out_prod]

theorem drains_sent (C : Nat) (n : Nat) (w : World) : (drains C n w).sent = w.sent := by
  induction n generalizing w with
  | zero => rfl
  | succ n ih => simp only [drains]; rw [ih, drain_sent]

theorem drains_yields (C : Nat) (n : Nat) (w : World) : (drains C n w).yields = w.yields := by
  induction n generalizing w with
  | zero => rfl
  | succ n ih => simp only [drains]; rw [ih, drain_yields]

theorem drains_wf (C : Nat) (n : Nat) (w : World) (h : RingWF C w.ring) :
    RingWF C (drains C n w).ring := by
  induction n generalizing w with
  | zero => exact h
  | succ n ih => simp only [drains]; exact ih _ (drain_wf C w h)

theorem drains_pending_le (C : Nat) (n : Nat) (w : World) (h : RingWF C w.ring) :
    pending (drains C n w).ring ≤ pending w.ring := by
  induction n generalizing w with
  | zero => exact le_refl _
  | succ n ih =>
    simp only [drains]
    exact le_trans (ih _ (drain_wf C w h)) (drain_pending_le C w h)

/-! ## `console_write`: the invariant -/

theorem SizeOK.pos {C : Nat} (h : SizeOK C) : 0 < C := by
  obtain ⟨k, _, rfl⟩ := h
  exact Nat.two_pow_pos k

theorem SizeOK.le {C : Nat} (h : SizeOK C) : C ≤ 2147483648 := by
  obtain ⟨k, hk, rfl⟩ := h
  calc 2 ^ k ≤ 2 ^ 31 := Nat.pow_le_pow_right (by decide) hk
    _ = 2147483648 := by norm_num

theorem SizeOK.dvd {C : Nat} (h : SizeOK C) : C ∣ IDX_MOD := by
  obtain ⟨k, hk, rfl⟩ := h
  have : IDX_MOD = 2 ^ 32 := by norm_num [IDX_MOD]
  rw [this]
  exact Nat.pow_dvd_pow 2 (by omega)

theorem mask_eq_mod {C : Nat} (h : SizeOK C) (p : Nat) : MASK_XENCONS_IDX p C = p % C := by
  obtain ⟨k, _, rfl⟩ := h
  exact Nat.and_pow_two_sub_one_eq_mod p k

theorem toInt32_small (x : Nat) (h : x < 2147483648) : toInt32 (x : Int) = (x : Int) := by
  unfold toInt32
  omega

theorem ring_index_eq {C : Nat} (h : SizeOK C) (p : Nat) :
    toInt32 (MASK_XENCONS_IDX p C : Nat) = ((p % C : Nat) : Int) := by
  rw [mask_eq_mod h]
  apply toInt32_small
  have := Nat.mod_lt p h.pos
  have := h.le
  omega

theorem wstep_store {C : Nat} (h : SizeOK C) (c : WriteCfg) (hpc : c.pc = .store)
    (hlen : c.w.ring.out.length = C) :
    wstep C c =
      { c with
        pc := .incr
        w := { c.w with
          ring := { c.w.ring with
            out := c.w.ring.out.set (c.w.ring.out_prod % C) (deref c.message) } } } := by
  unfold wstep
  simp only [hpc, ring_index_eq h, Int.toNat_ofNat, hlen]
  rw [if_pos]
  exact ⟨Int.ofNat_nonneg _, Nat.mod_lt _ h.pos⟩

theorem deref_tail_cstr (m : List Nat) (h : deref m ≠ 0) :
    cstr m = deref m :: cstr m.tail := by
  cases m with
  | nil => exact absurd rfl h
  | cons b bs =>
    simp only [deref] at h
    simp [cstr, deref, h]

theorem deref_zero_cstr (m : List Nat) (h : deref m = 0) : cstr m = [] := by
  cases m with
  | nil => rfl
  | cons b bs =>
    simp only [deref] at h
    simp [cstr, h]

theorem wstep_inv {C : Nat} (hC : SizeOK C) (c : WriteCfg) (h : WInv C c) :
    WInv C (wstep C c) := by
  obtain ⟨hwf, hp, hpc⟩ := h
  have hwf0 := hwf
  obtain ⟨hlen, hprod, hcons⟩ := hwf
  have hCle := hC.le
  cases hc : c.pc with
  | head =>
    unfold wstep; simp only [hc]
    by_cases hd : deref c.message ≠ 0
    · rw [if_pos hd]; exact ⟨hwf0, hp, hd⟩
    · rw [if_neg hd]; exact ⟨hwf0, hp, not_not.mp hd⟩
  | poll =>
    rw [hc] at hpc
    unfold wstep; simp only [hc]
    exact ⟨hwf0, hp, hpc, le_refl _⟩
  | send =>
    rw [hc] at hpc
    unfold wstep; simp only [hc]
    exact ⟨hwf0, hp, hpc⟩
  | check =>
    rw [hc] at hpc
    unfold wstep; simp only [hc]
    by_cases hd : C ≤ c.data
    · rw [if_pos hd]; exact ⟨hwf0, hp, hpc.1⟩
    · rw [if_neg hd]
      have h2 : pending c.w.ring < C := by omega
      exact ⟨hwf0, hp, hpc.1, h2⟩
  | store =>
    rw [hc] at hpc
    rw [wstep_store hC c hc hlen]
    refine ⟨⟨?_, hprod, hcons⟩, hp, hpc.1, hpc.2, ?_⟩
    · simp [hlen]
    · simp only
      rw [List.getD_eq_getElem _ _ (by simp [hlen, Nat.mod_lt _ hC.pos])]
      simp
  | incr =>
    rw [hc] at hpc
    unfold wstep; simp only [hc]
    refine ⟨⟨hlen, ?_, hcons⟩, ?_, trivial⟩
    · simp only [IDX_MOD]; omega
    · have := hpc.2.1
      simp only [pending, IDX_MOD] at *
      omega
  | final =>
    rw [hc] at hpc
    unfold wstep; simp only [hc]
    exact ⟨hwf0, hp, hpc⟩
  | done =>
    rw [hc] at hpc
    unfold wstep; simp only [hc]
    exact ⟨hwf0, hp, by rw [hc]; exact hpc⟩
  | fault =>
    rw [hc] at hpc
    exact absurd hpc id

theorem drains_inv {C : Nat} (c : WriteCfg) (e : Nat) (h : WInv C c) :
    WInv C { c with w := drains C e c.w } := by
  obtain ⟨hwf, hp, hpc⟩ := h
  have hle := drains_pending_le C e c.w hwf
  refine ⟨drains_wf C e c.w hwf, le_trans hle hp, ?_⟩
  cases hc : c.pc <;> rw [hc] at hpc <;> simp only [drains_out, drains_out_prod] at * <;>
    first
      | exact hpc
      | exact ⟨hpc.1, le_trans hle hpc.2⟩
      | exact ⟨hpc.1, lt_of_le_of_lt hle hpc.2⟩
      | exact ⟨hpc.1, lt_of_le_of_lt hle hpc.2.1, hpc.2.2⟩

theorem wround_inv {C : Nat} (hC : SizeOK C) (c : WriteCfg) (e : Nat) (h : WInv C c) :
    WInv C (wround C e c) :=
  drains_inv (wstep C c) e (wstep_inv hC c h)

theorem wrun_inv {C : Nat} (hC : SizeOK C) (env : Nat → WriteCfg → Nat) (c : WriteCfg)
    (h : WInv C c) (n : Nat) : WInv C (wrun C env n c) := by
  induction n with
  | zero => exact h
  | succ n ih => exact wround_inv hC _ _ ih

/-! ## Ring content -/

theorem contentFrom_snoc {C : Nat} (hd : C ∣ IDX_MOD) (out : List Nat) (s n : Nat) :
    contentFrom C out s (n + 1) = contentFrom C out s n ++ [out.getD ((s + n) % C) 0] := by
  induction n generalizing s with
  | zero => simp [contentFrom]
  | succ n ih =>
    rw [contentFrom, ih ((s + 1) % IDX_MOD)]
    have e : ((s + 1) % IDX_MOD + n) % C = (s + (n + 1)) % C := by
      rw [Nat.add_mod, Nat.mod_mod_of_dvd _ hd, ← Nat.add_mod]
      congr 1; omega
    rw [e]
    simp [contentFrom]

theorem contentFrom_set {C : Nat} (hd : C ∣ IDX_MOD) (out : List Nat) (j b : Nat) (s n : Nat)
    (h : ∀ i, i < n → (s + i) % C ≠ j) :
    contentFrom C (out.set j b) s n = contentFrom C out s n := by
  induction n generalizing s with
  | zero => rfl
  | succ n ih =>
    have h0 : j ≠ s % C := fun e => h 0 (Nat.succ_pos n) e.symm
    have ht : ∀ i, i < n → ((s + 1) % IDX_MOD + i) % C ≠ j := by
      intro i hi
      have e : ((s + 1) % IDX_MOD + i) % C = (s + (i + 1)) % C := by
        rw [Nat.add_mod, Nat.mod_mod_of_dvd _ hd, ← Nat.add_mod]
        congr 1; omega
      rw [e]
      exact h (i + 1) (by omega)
    simp only [contentFrom]
    rw [ih _ ht, List.getD_eq_getElem?_getD, List.getD_eq_getElem?_getD,
      List.getElem?_set_ne h0]

theorem prod_mod {C : Nat} (hd : C ∣ IDX_MOD) (r : xencons_interface)
    (hprod : r.out_prod < IDX_MOD) (hcons : r.out_cons < IDX_MOD) :
    (r.out_cons + pending r) % C = r.out_prod % C := by
  have e : (r.out_cons + pending r) % IDX_MOD = r.out_prod := by
    simp only [pending, IDX_MOD] at *
    omega
  rw [← Nat.mod_mod_of_dvd (r.out_cons + pending r) hd, e]

theorem slot_free {C : Nat} (hd : C ∣ IDX_MOD) (r : xencons_interface)
    (hprod : r.out_prod < IDX_MOD) (hcons : r.out_cons < IDX_MOD) (hlt : pending r < C)
    (i : Nat) (hi : i < pending r) : (r.out_cons + i) % C ≠ r.out_prod % C := by
  intro e
  rw [← prod_mod hd r hprod hcons] at e
  have hdv : C ∣ r.out_cons + pending r - (r.out_cons + i) :=
    (Nat.modEq_iff_dvd' (by omega)).mp e
  have := Nat.le_of_dvd (by omega) hdv
  omega

theorem drain_content {C : Nat} (w : World) (hwf : RingWF C w.ring) :
    (drain C w).seen ++ content C (drain C w).ring = w.seen ++ content C w.ring := by
  obtain ⟨_, hprod, hcons⟩ := hwf
  unfold drain
  split
  · rfl
  · rename_i hne
    have hp : pending w.ring =
        pending { w.ring with out_cons := (w.ring.out_cons + 1) % IDX_MOD } + 1 := by
      simp only [pending, IDX_MOD] at *
      omega
    simp only [content]
    rw [hp]
    simp [contentFrom]

theorem drains_content {C : Nat} (e : Nat) (w : World) (hwf : RingWF C w.ring) :
    (drains C e w).seen ++ content C (drains C e w).ring = w.seen ++ content C w.ring := by
  induction e generalizing w with
  | zero => rfl
  | succ e ih =>
    simp only [drains]
    rw [ih _ (drain_wf C w hwf), drain_content w hwf]

theorem wstep_stream {C : Nat} (hC : SizeOK C) (c : WriteCfg) (h : WInv C c) :
    stream C (wstep C c) = stream C c := by
  obtain ⟨hwf, hp, hpc⟩ := h
  obtain ⟨hlen, hprod, hcons⟩ := hwf
  cases hc : c.pc with
  | head => unfold wstep; simp only [hc]; split <;> rfl
  | poll => unfold wstep; simp only [hc]; rfl
  | send => unfold wstep; simp only [hc]; rfl
  | check => unfold wstep; simp only [hc]; split <;> rfl
  | store =>
    rw [hc] at hpc
    rw [wstep_store hC c hc hlen]
    simp only [stream, content]
    have e : pending { c.w.ring with
        out := c.w.ring.out.set (c.w.ring.out_prod % C) (deref c.message) } =
        pending c.w.ring := rfl
    rw [e, contentFrom_set hC.dvd _ _ _ _ _
      (fun i hi => slot_free hC.dvd c.w.ring hprod hcons hpc.2 i hi)]
  | incr =>
    rw [hc] at hpc
    obtain ⟨hd, hlt, hbyte⟩ := hpc
    have hCle := hC.le
    unfold wstep; simp only [hc, stream, content]
    have e : pending { c.w.ring with out_prod := (c.w.ring.out_prod + 1) % IDX_MOD } =
        pending c.w.ring + 1 := by
      simp only [pending, IDX_MOD] at *
      omega
    rw [e, contentFrom_snoc hC.dvd, prod_mod hC.dvd c.w.ring hprod hcons, hbyte,
      deref_tail_cstr c.message hd]
    simp
  | final => unfold wstep; simp only [hc]; rfl
  | done => unfold wstep; simp only [hc]
  | fault => rw [hc] at hpc; exact absurd hpc id

/-! ## Sessions -/

theorem drains_stream {C : Nat} (c : WriteCfg) (e : Nat) (hwf : RingWF C c.w.ring) :
    stream C { c with w := drains C e c.w } = stream C c := by
  simp only [stream]
  rw [drains_content e c.w hwf]

theorem sstep_inv {C : Nat} (hC : SizeOK C) (s : Session) (h : WInv C s.cur) :
    WInv C (sstep C s).cur := by
  unfold sstep
  split
  · split
    · exact h
    · exact ⟨h.1, h.2.1, trivial⟩
  · exact wstep_inv hC _ h

theorem srun_inv {C : Nat} (hC : SizeOK C) (env : Nat → Session → Nat) (s : Session)
    (h : WInv C s.cur) (n : Nat) : WInv C (srun C env n s).cur := by
  induction n with
  | zero => exact h
  | succ n ih => exact drains_inv _ _ (sstep_inv hC _ ih)

theorem sstep_stream {C : Nat} (hC : SizeOK C) (s : Session) (h : WInv C s.cur) :
    stream C (sstep C s).cur ++ cstrs (sstep C s).todo = stream C s.cur ++ cstrs s.todo := by
  unfold sstep
  split
  · rename_i hdone
    split
    · rfl
    · rename_i m ms htodo
      have hz : deref s.cur.message = 0 := by
        have := h.2.2
        rw [hdone] at this
        exact this
      simp only [stream, console_write_entry, htodo, cstrs, deref_zero_cstr _ hz]
      simp
  · simp only
    rw [wstep_stream hC _ h]

theorem srun_stream {C : Nat} (hC : SizeOK C) (env : Nat → Session → Nat) (s : Session)
    (h : WInv C s.cur) (n : Nat) :
    stream C (srun C env n s).cur ++ cstrs (srun C env n s).todo =
      stream C s.cur ++ cstrs s.todo := by
  induction n with
  | zero => rfl
  | succ n ih =>
    have hi := srun_inv hC env s h n
    have hs := sstep_inv hC _ hi
    simp only [srun, sround]
    rw [drains_stream _ _ hs.1, sstep_stream hC _ hi, ih]

theorem start_inv {C : Nat} (port : Nat) (msgs : List (List Nat)) (w0 : World)
    (hwf : RingWF C w0.ring) (h0 : pending w0.ring ≤ C) :
    WInv C (Session.start port msgs w0).cur :=
  ⟨hwf, h0, rfl⟩

theorem contentFrom_length (C : Nat) (out : List Nat) (s n : Nat) :
    (contentFrom C out s n).length = n := by
  induction n generalizing s with
  | zero => rfl
  | succ n ih => simp [contentFrom, ih]

theorem content_length (C : Nat) (r : xencons_interface) : (content C r).length = pending r :=
  contentFrom_length C r.out r.out_cons (pending r)

theorem content_drained (C : Nat) (r : xencons_interface) (h : r.out_cons = r.out_prod) :
    content C r = [] := by
  have : pending r = 0 := by
    simp only [pending, IDX_MOD, h]
    omega
  simp [content, this, contentFrom]

/-! ## Bookkeeping of one call -/

theorem strlen_tail (m : List Nat) (h : deref m ≠ 0) : strlen m = strlen m.tail + 1 := by
  unfold strlen
  rw [deref_tail_cstr m h]
  rfl

theorem strlen_zero (m : List Nat) (h : deref m = 0) : strlen m = 0 := by
  unfold strlen
  rw [deref_zero_cstr m h]
  rfl

theorem toInt32_succ (x : Nat) : toInt32 (toInt32 (x : Int) + 1) = toInt32 ((x + 1 : Nat) : Int) := by
  unfold toInt32
  omega

theorem wstep_cnt (C : Nat) (m0 : List Nat) (w0 : World) (port k : Nat) (c : WriteCfg)
    (h : Cnt m0 w0 port k c) :
    Cnt m0 w0 port (k + (if c.pc = .check ∧ C ≤ c.data then 1 else 0)) (wstep C c) := by
  obtain ⟨hport, hle, hlen, hprod, hsent, hd⟩ := h
  cases hc : c.pc with
  | head =>
    have hk : (if WPc.head = WPc.check ∧ C ≤ c.data then 1 else 0) = 0 := by simp
    rw [hk, Nat.add_zero]; rw [hc] at hsent hd
    unfold wstep; simp only [hc]
    by_cases hz : deref c.message ≠ 0
    · rw [if_pos hz]
      exact ⟨hport, hle, hlen, hprod, hsent, hz⟩
    · rw [if_neg hz]
      exact ⟨hport, hle, hlen, hprod, hsent, not_not.mp hz⟩
  | poll =>
    have hk : (if WPc.poll = WPc.check ∧ C ≤ c.data then 1 else 0) = 0 := by simp
    rw [hk, Nat.add_zero]; rw [hc] at hsent hd
    unfold wstep; simp only [hc]
    exact ⟨hport, hle, hlen, hprod, hsent, hd⟩
  | send =>
    have hk : (if WPc.send = WPc.check ∧ C ≤ c.data then 1 else 0) = 0 := by simp
    rw [hk, Nat.add_zero]; rw [hc] at hsent hd
    unfold wstep; simp only [hc]
    refine ⟨hport, hle, hlen, hprod, ?_, hd⟩
    show c.w.sent ++ [c.port] = w0.sent ++
      List.replicate (strlen m0 - strlen c.message + k + 1) port
    rw [hsent, hport, List.replicate_succ', List.append_assoc]
    rfl
  | check =>
    rw [hc] at hsent hd
    unfold wstep; simp only [hc]
    by_cases hf : C ≤ c.data
    · rw [if_pos hf]
      have hk : (if True ∧ C ≤ c.data then 1 else 0) = 1 := by simp [hf]
      rw [hk]
      exact ⟨hport, hle, hlen, hprod, hsent, hd⟩
    · rw [if_neg hf]
      have hk : (if True ∧ C ≤ c.data then 1 else 0) = 0 := by simp [hf]
      rw [hk, Nat.add_zero]
      exact ⟨hport, hle, hlen, hprod, hsent, hd⟩
  | store =>
    have hk : (if WPc.store = WPc.check ∧ C ≤ c.data then 1 else 0) = 0 := by simp
    rw [hk, Nat.add_zero]; rw [hc] at hsent hd
    unfold wstep; simp only [hc]
    split
    · exact ⟨hport, hle, hlen, hprod, hsent, hd⟩
    · exact ⟨hport, hle, hlen, hprod, hsent, trivial⟩
  | incr =>
    have hk : (if WPc.incr = WPc.check ∧ C ≤ c.data then 1 else 0) = 0 := by simp
    rw [hk, Nat.add_zero]; rw [hc] at hsent hd
    have hd2 : deref c.message ≠ 0 := hd
    have ht := strlen_tail c.message hd2
    have e : strlen m0 - strlen c.message.tail = (strlen m0 - strlen c.message) + 1 := by omega
    unfold wstep; simp only [hc]
    refine ⟨hport, ?_, ?_, ?_, ?_, trivial⟩
    · show strlen c.message.tail ≤ strlen m0
      omega
    · show toInt32 (c.length + 1) = toInt32 ((strlen m0 - strlen c.message.tail : Nat) : Int)
      rw [e, hlen, toInt32_succ]
    · show (c.w.ring.out_prod + 1) % IDX_MOD =
        (w0.ring.out_prod + (strlen m0 - strlen c.message.tail)) % IDX_MOD
      rw [e, hprod]
      simp only [IDX_MOD]
      omega
    · show c.w.sent = w0.sent ++
        List.replicate (strlen m0 - strlen c.message.tail + k + 0) port
      rw [e, hsent]
      congr 2
      show strlen m0 - strlen c.message + k + 1 = strlen m0 - strlen c.message + 1 + k + 0
      omega
  | final =>
    have hk : (if WPc.final = WPc.check ∧ C ≤ c.data then 1 else 0) = 0 := by simp
    rw [hk, Nat.add_zero]; rw [hc] at hsent hd
    unfold wstep; simp only [hc]
    refine ⟨hport, hle, hlen, hprod, ?_, hd⟩
    show c.w.sent ++ [c.port] = w0.sent ++
      List.replicate (strlen m0 - strlen c.message + k + 1) port
    rw [hsent, hport, List.replicate_succ', List.append_assoc]
    rfl
  | done =>
    have hk : (if WPc.done = WPc.check ∧ C ≤ c.data then 1 else 0) = 0 := by simp
    rw [hk, Nat.add_zero]
    have e : wstep C c = c := by unfold wstep; simp only [hc]
    rw [e]
    exact ⟨hport, hle, hlen, hprod, hsent, hd⟩
  | fault =>
    have hk : (if WPc.fault = WPc.check ∧ C ≤ c.data then 1 else 0) = 0 := by simp
    rw [hk, Nat.add_zero]
    have e : wstep C c = c := by unfold wstep; simp only [hc]
    rw [e]
    exact ⟨hport, hle, hlen, hprod, hsent, hd⟩

theorem wround_cnt (C : Nat) (m0 : List Nat) (w0 : World) (port k e : Nat) (c : WriteCfg)
    (h : Cnt m0 w0 port k c) :
    Cnt m0 w0 port (k + (if c.pc = .check ∧ C ≤ c.data then 1 else 0)) (wround C e c) := by
  obtain ⟨h1, h2, h3, h4, h5, h6⟩ := wstep_cnt C m0 w0 port k c h
  refine ⟨h1, h2, h3, ?_, ?_, h6⟩
  · simp only [wround, drains_out_prod]; exact h4
  · simp only [wround, drains_sent]; exact h5

theorem wrun_cnt (C : Nat) (env : Nat → WriteCfg → Nat) (port : Nat) (m : List Nat)
    (w0 : World) (hprod : w0.ring.out_prod < IDX_MOD) (n : Nat) :
    Cnt m w0 port (fullPolls C env (console_write_entry port m w0) n)
      (wrun C env n (console_write_entry port m w0)) := by
  induction n with
  | zero =>
    refine ⟨rfl, le_refl _, ?_, ?_, ?_, trivial⟩
    · show (0 : Int) = toInt32 ((strlen m - strlen m : Nat) : Int)
      rw [Nat.sub_self]; rfl
    · show w0.ring.out_prod = (w0.ring.out_prod + (strlen m - strlen m)) % IDX_MOD
      rw [Nat.sub_self, Nat.add_zero]
      exact (Nat.mod_eq_of_lt hprod).symm
    · show w0.sent = w0.sent ++ List.replicate (strlen m - strlen m + 0 + 0) port
      rw [Nat.sub_self]
      simp
  | succ n ih => exact wround_cnt C m w0 port _ _ _ ih

/-! ## Backpressure -/

theorem wround_zero (C : Nat) (c : WriteCfg) : wround C 0 c = wstep C c := rfl

theorem fill_phase {C : Nat} (hC : SizeOK C) (port : Nat) (m : List Nat) (w0 : World)
    (hwf : RingWF C w0.ring) (h0 : pending w0.ring ≤ C)
    (hlong : C - pending w0.ring < strlen m) (n : Nat)
    (hn : n ≤ 6 * (C - pending w0.ring)) :
    (wrun C (fun _ _ => 0) n (console_write_entry port m w0)).pc = pcOf (n % 6) ∧
    strlen (wrun C (fun _ _ => 0) n (console_write_entry port m w0)).message + n / 6 =
      strlen m ∧
    pending (wrun C (fun _ _ => 0) n (console_write_entry port m w0)).w.ring =
      pending w0.ring + n / 6 ∧
    ((wrun C (fun _ _ => 0) n (console_write_entry port m w0)).pc = .send ∨
      (wrun C (fun _ _ => 0) n (console_write_entry port m w0)).pc = .check →
      (wrun C (fun _ _ => 0) n (console_write_entry port m w0)).data =
        pending (wrun C (fun _ _ => 0) n (console_write_entry port m w0)).w.ring) := by
  induction n with
  | zero =>
    refine ⟨rfl, rfl, rfl, ?_⟩
    rintro (h | h) <;> exact absurd h (by simp [wrun, console_write_entry])
  | succ n ih =>
    obtain ⟨hpc, hs, hp, hdat⟩ := ih (by omega)
    have hinv := wrun_inv hC (fun _ _ => 0) (console_write_entry port m w0)
      ⟨hwf, h0, trivial⟩ n
    obtain ⟨⟨hlen, hprod, hcons⟩, hple, hat⟩ := hinv
    have hCle := hC.le
    simp only [wrun, wround_zero]
    generalize wrun C (fun _ _ => 0) n (console_write_entry port m w0) = c at *
    have hr : n % 6 = 0 ∨ n % 6 = 1 ∨ n % 6 = 2 ∨ n % 6 = 3 ∨ n % 6 = 4 ∨ n % 6 = 5 := by omega
    rcases hr with hr | hr | hr | hr | hr | hr
    · have hc : c.pc = .head := by rw [hpc, hr]; rfl
      have hd : deref c.message ≠ 0 := by
        intro hz
        have := strlen_zero _ hz
        omega
      have e : wstep C c = { c with pc := .poll } := by
        unfold wstep; simp only [hc]; rw [if_pos hd]
      have e1 : (n + 1) % 6 = 1 := by omega
      have e2 : (n + 1) / 6 = n / 6 := by omega
      rw [e, e1, e2]
      refine ⟨rfl, hs, hp, ?_⟩
      rintro (h | h) <;> exact absurd h (by simp [wrun, console_write_entry])
    · have hc : c.pc = .poll := by rw [hpc, hr]; rfl
      have e : wstep C c = { c with pc := .send, data := pending c.w.ring } := by
        unfold wstep; simp only [hc]
      have e1 : (n + 1) % 6 = 2 := by omega
      have e2 : (n + 1) / 6 = n / 6 := by omega
      rw [e, e1, e2]
      exact ⟨rfl, hs, hp, fun _ => rfl⟩
    · have hc : c.pc = .send := by rw [hpc, hr]; rfl
      have e : wstep C c =
          { c with pc := .check, w := { c.w with sent := c.w.sent ++ [c.port] } } := by
        unfold wstep; simp only [hc]
      have e1 : (n + 1) % 6 = 3 := by omega
      have e2 : (n + 1) / 6 = n / 6 := by omega
      rw [e, e1, e2]
      exact ⟨rfl, hs, hp, fun _ => hdat (Or.inl hc)⟩
    · have hc : c.pc = .check := by rw [hpc, hr]; rfl
      have hdt := hdat (Or.inr hc)
      have hlt : ¬ C ≤ c.data := by omega
      have e : wstep C c = { c with pc := .store } := by
        unfold wstep; simp only [hc]; rw [if_neg hlt]
      have e1 : (n + 1) % 6 = 4 := by omega
      have e2 : (n + 1) / 6 = n / 6 := by omega
      rw [e, e1, e2]
      refine ⟨rfl, hs, hp, ?_⟩
      rintro (h | h) <;> exact absurd h (by simp [wrun, console_write_entry])
    · have hc : c.pc = .store := by rw [hpc, hr]; rfl
      have e1 : (n + 1) % 6 = 5 := by omega
      have e2 : (n + 1) / 6 = n / 6 := by omega
      rw [wstep_store hC c hc hlen, e1, e2]
      refine ⟨rfl, hs, hp, ?_⟩
      rintro (h | h) <;> exact absurd h (by simp [wrun, console_write_entry])
    · have hc : c.pc = .incr := by rw [hpc, hr]; rfl
      rw [hc] at hat
      have ht := strlen_tail c.message hat.1
      have hlt := hat.2.1
      have e : wstep C c =
          { c with
            pc := .head
            w := { c.w with
              ring := { c.w.ring with out_prod := (c.w.ring.out_prod + 1) % IDX_MOD } }
            length := toInt32 (c.length + 1)
            message := c.message.tail } := by
        unfold wstep; simp only [hc]
      have e1 : (n + 1) % 6 = 0 := by omega
      have e2 : (n + 1) / 6 = n / 6 + 1 := by omega
      rw [e, e1, e2]
      refine ⟨rfl, ?_, ?_, ?_⟩
      · show strlen c.message.tail + (n / 6 + 1) = strlen m
        omega
      · show pending { c.w.ring with out_prod := (c.w.ring.out_prod + 1) % IDX_MOD } =
          pending w0.ring + (n / 6 + 1)
        rw [← Nat.add_assoc, ← hp]
        simp only [pending, IDX_MOD] at *
        omega
      · rintro (h | h) <;> exact absurd h (by simp [wrun, console_write_entry])

theorem full_phase {C : Nat} (hC : SizeOK C) (port : Nat) (m : List Nat) (w0 : World)
    (hwf : RingWF C w0.ring) (h0 : pending w0.ring ≤ C)
    (hlong : C - pending w0.ring < strlen m) (n : Nat)
    (hn : 6 * (C - pending w0.ring) + 1 ≤ n) :
    ((wrun C (fun _ _ => 0) n (console_write_entry port m w0)).pc = .poll ∨
      ((wrun C (fun _ _ => 0) n (console_write_entry port m w0)).pc = .send ∧
        C ≤ (wrun C (fun _ _ => 0) n (console_write_entry port m w0)).data) ∨
      ((wrun C (fun _ _ => 0) n (console_write_entry port m w0)).pc = .check ∧
        C ≤ (wrun C (fun _ _ => 0) n (console_write_entry port m w0)).data)) ∧
    pending (wrun C (fun _ _ => 0) n (console_write_entry port m w0)).w.ring = C ∧
    strlen (wrun C (fun _ _ => 0) n (console_write_entry port m w0)).message +
      (C - pending w0.ring) = strlen m := by
  induction n with
  | zero => omega
  | succ n ih =>
    simp only [wrun, wround_zero]
    by_cases hb : n = 6 * (C - pending w0.ring)
    · obtain ⟨hpc, hs, hp, _⟩ := fill_phase hC port m w0 hwf h0 hlong n (by omega)
      generalize wrun C (fun _ _ => 0) n (console_write_entry port m w0) = c at *
      have e1 : n % 6 = 0 := by omega
      have e2 : n / 6 = C - pending w0.ring := by omega
      rw [e1] at hpc
      rw [e2] at hs hp
      have hc : c.pc = .head := hpc
      have hd : deref c.message ≠ 0 := by
        intro hz
        have := strlen_zero _ hz
        omega
      have e : wstep C c = { c with pc := .poll } := by
        unfold wstep; simp only [hc]; rw [if_pos hd]
      rw [e]
      exact ⟨Or.inl rfl, by show pending c.w.ring = C; omega, hs⟩
    · obtain ⟨hpc, hp, hs⟩ := ih (by omega)
      generalize wrun C (fun _ _ => 0) n (console_write_entry port m w0) = c at *
      rcases hpc with hc | ⟨hc, hdat⟩ | ⟨hc, hdat⟩
      · have e : wstep C c = { c with pc := .send, data := pending c.w.ring } := by
          unfold wstep; simp only [hc]
        rw [e]
        exact ⟨Or.inr (Or.inl ⟨rfl, by show C ≤ pending c.w.ring; omega⟩), hp, hs⟩
      · have e : wstep C c =
            { c with pc := .check, w := { c.w with sent := c.w.sent ++ [c.port] } } := by
          unfold wstep; simp only [hc]
        rw [e]
        exact ⟨Or.inr (Or.inr ⟨rfl, hdat⟩), hp, hs⟩
      · have e : wstep C c = { c with pc := .poll } := by
          unfold wstep; simp only [hc]; rw [if_pos hdat]
        rw [e]
        exact ⟨Or.inl rfl, hp, hs⟩

/-! ## Termination of `console_write` against a stub -/

theorem wrun_stub_add (C : Nat) (stub : Nat → xencons_interface → Nat) (a b : Nat)
    (c : WriteCfg) :
    wrun C (notifyStub stub) (a + b) c =
      wrun C (notifyStub stub) b (wrun C (notifyStub stub) a c) := by
  induction b with
  | zero => rfl
  | succ b ih =>
    have e : wrun C (notifyStub stub) (a + (b + 1)) c =
        wround C (notifyStub stub (a + b) (wrun C (notifyStub stub) (a + b) c))
          (wrun C (notifyStub stub) (a + b) c) := rfl
    rw [e, ih]
    rfl

theorem drain_pending_lt (C : Nat) (w : World) (h : RingWF C w.ring)
    (hp : 1 ≤ pending w.ring) : pending (drain C w).ring < pending w.ring := by
  obtain ⟨_, h2, h3⟩ := h
  unfold drain
  split
  · rename_i he
    simp only [pending, IDX_MOD, he] at hp
    omega
  · simp only [pending, IDX_MOD] at *
    omega

theorem drains_pending_lt (C : Nat) (e : Nat) (w : World) (h : RingWF C w.ring)
    (he : 1 ≤ e) (hp : 1 ≤ pending w.ring) :
    pending (drains C e w).ring < pending w.ring := by
  cases e with
  | zero => omega
  | succ e =>
    simp only [drains]
    exact lt_of_le_of_lt (drains_pending_le C e _ (drain_wf C w h)) (drain_pending_lt C w h hp)

theorem round_head (C : Nat) (stub : Nat → xencons_interface → Nat) (c : WriteCfg)
    (hc : c.pc = .head) :
    wrun C (notifyStub stub) 1 c =
      if deref c.message ≠ 0 then { c with pc := .poll } else { c with pc := .final } := by
  simp only [wrun, wround, notifyStub, hc]
  unfold wstep
  simp only [hc]
  split <;> simp [drains]

theorem round_poll (C : Nat) (stub : Nat → xencons_interface → Nat) (c : WriteCfg)
    (hc : c.pc = .poll) :
    wrun C (notifyStub stub) 1 c = { c with pc := .send, data := pending c.w.ring } := by
  simp only [wrun, wround, notifyStub, hc]
  unfold wstep
  simp [hc, drains]

theorem round_send (C : Nat) (stub : Nat → xencons_interface → Nat) (c : WriteCfg)
    (hc : c.pc = .send) :
    wrun C (notifyStub stub) 1 c =
      { c with
        pc := .check
        w := drains C (stub c.w.sent.length c.w.ring)
          { c.w with sent := c.w.sent ++ [c.port] } } := by
  simp only [wrun, wround, notifyStub, hc]
  unfold wstep
  simp [hc]

theorem round_check (C : Nat) (stub : Nat → xencons_interface → Nat) (c : WriteCfg)
    (hc : c.pc = .check) :
    wrun C (notifyStub stub) 1 c =
      if C ≤ c.data then { c with pc := .poll } else { c with pc := .store } := by
  simp only [wrun, wround, notifyStub, hc]
  unfold wstep
  simp only [hc]
  split <;> simp [drains]

theorem round_store {C : Nat} (hC : SizeOK C) (stub : Nat → xencons_interface → Nat)
    (c : WriteCfg) (hc : c.pc = .store) (hlen : c.w.ring.out.length = C) :
    wrun C (notifyStub stub) 1 c =
      { c with
        pc := .incr
        w := { c.w with
          ring := { c.w.ring with
            out := c.w.ring.out.set (c.w.ring.out_prod % C) (deref c.message) } } } := by
  simp only [wrun, wround, notifyStub, hc]
  rw [wstep_store hC c hc hlen]
  simp [drains]

theorem round_incr (C : Nat) (stub : Nat → xencons_interface → Nat) (c : WriteCfg)
    (hc : c.pc = .incr) :
    wrun C (notifyStub stub) 1 c =
      { c with
        pc := .head
        w := { c.w with ring := { c.w.ring with out_prod := (c.w.ring.out_prod + 1) % IDX_MOD } }
        length := toInt32 (c.length + 1)
        message := c.message.tail } := by
  simp only [wrun, wround, notifyStub, hc]
  unfold wstep
  simp [hc, drains]

theorem round_final (C : Nat) (stub : Nat → xencons_interface → Nat) (c : WriteCfg)
    (hc : c.pc = .final) :
    (wrun C (notifyStub stub) 1 c).pc = .done := by
  simp only [wrun, wround, notifyStub, hc]
  unfold wstep
  simp [hc]

theorem poll_round (C : Nat) (stub : Nat → xencons_interface → Nat) (c : WriteCfg)
    (hc : c.pc = .poll) :
    wrun C (notifyStub stub) 3 c =
      if C ≤ pending c.w.ring then
        { c with
          pc := .poll
          data := pending c.w.ring
          w := drains C (stub c.w.sent.length c.w.ring)
            { c.w with sent := c.w.sent ++ [c.port] } }
      else
        { c with
          pc := .store
          data := pending c.w.ring
          w := drains C (stub c.w.sent.length c.w.ring)
            { c.w with sent := c.w.sent ++ [c.port] } } := by
  have e3 : (3 : Nat) = 1 + 1 + 1 := rfl
  have h1 := round_poll C stub c hc
  have h2 := round_send C stub { c with pc := .send, data := pending c.w.ring } rfl
  have h3 := round_check C stub
    { c with
      pc := .check
      data := pending c.w.ring
      w := drains C (stub c.w.sent.length c.w.ring)
        { c.w with sent := c.w.sent ++ [c.port] } } rfl
  rw [e3, wrun_stub_add, wrun_stub_add, h1, h2, h3]

theorem poll_open (C : Nat) (stub : Nat → xencons_interface → Nat) (c : WriteCfg)
    (hc : c.pc = .poll) (hlt : pending c.w.ring < C) :
    (wrun C (notifyStub stub) 3 c).pc = .store ∧
    (wrun C (notifyStub stub) 3 c).message = c.message := by
  rw [poll_round C stub c hc, if_neg (by omega)]
  exact ⟨rfl, rfl⟩

theorem poll_exit {C : Nat} (hC : SizeOK C) (stub : Nat → xencons_interface → Nat) (j : Nat) :
    ∀ c : WriteCfg, WInv C c → c.pc = .poll →
      (pending c.w.ring = C → 1 ≤ stub (c.w.sent.length + j) c.w.ring) →
      ∃ n, (wrun C (notifyStub stub) n c).pc = .store ∧
        (wrun C (notifyStub stub) n c).message = c.message := by
  induction j with
  | zero =>
    intro c hinv hc hj
    by_cases hlt : pending c.w.ring < C
    · exact ⟨3, poll_open C stub c hc hlt⟩
    · have hfull : pending c.w.ring = C := le_antisymm hinv.2.1 (by omega)
      have he := hj hfull
      have h3 := poll_round C stub c hc
      rw [if_pos (by omega)] at h3
      have hlt3 : pending (wrun C (notifyStub stub) 3 c).w.ring < C := by
        rw [h3]
        have := drains_pending_lt C (stub c.w.sent.length c.w.ring)
          { c.w with sent := c.w.sent ++ [c.port] } hinv.1 he
          (by show 1 ≤ pending c.w.ring; have := hC.pos; omega)
        calc _ < pending c.w.ring := this
          _ = C := hfull
      have hc3 : (wrun C (notifyStub stub) 3 c).pc = .poll := by rw [h3]
      have hm3 : (wrun C (notifyStub stub) 3 c).message = c.message := by rw [h3]
      obtain ⟨h1, h2⟩ := poll_open C stub _ hc3 hlt3
      refine ⟨3 + 3, ?_⟩
      rw [wrun_stub_add]
      exact ⟨h1, h2.trans hm3⟩
  | succ j ih =>
    intro c hinv hc hj
    by_cases hlt : pending c.w.ring < C
    · exact ⟨3, poll_open C stub c hc hlt⟩
    · have hfull : pending c.w.ring = C := le_antisymm hinv.2.1 (by omega)
      have h3 := poll_round C stub c hc
      rw [if_pos (by omega)] at h3
      have hinv3 := wrun_inv hC (notifyStub stub) c hinv 3
      have hc3 : (wrun C (notifyStub stub) 3 c).pc = .poll := by rw [h3]
      have hm3 : (wrun C (notifyStub stub) 3 c).message = c.message := by rw [h3]
      by_cases he : stub c.w.sent.length c.w.ring = 0
      · rw [he] at h3
        have hs3 : (wrun C (notifyStub stub) 3 c).w.sent.length = c.w.sent.length + 1 := by
          rw [h3]; simp [drains]
        have hr3 : (wrun C (notifyStub stub) 3 c).w.ring = c.w.ring := by rw [h3]; rfl
        obtain ⟨n, h1, h2⟩ := ih _ hinv3 hc3 (by
          intro _
          rw [hs3, hr3]
          have := hj hfull
          have e : c.w.sent.length + 1 + j = c.w.sent.length + (j + 1) := by omega
          rw [e]
          exact this)
        refine ⟨3 + n, ?_⟩
        rw [wrun_stub_add]
        exact ⟨h1, h2.trans hm3⟩
      · have hlt3 : pending (wrun C (notifyStub stub) 3 c).w.ring < C := by
          rw [h3]
          have := drains_pending_lt C (stub c.w.sent.length c.w.ring)
            { c.w with sent := c.w.sent ++ [c.port] } hinv.1 (by omega)
            (by show 1 ≤ pending c.w.ring; have := hC.pos; omega)
          calc _ < pending c.w.ring := this
            _ = C := hfull
        obtain ⟨h1, h2⟩ := poll_open C stub _ hc3 hlt3
        refine ⟨3 + 3, ?_⟩
        rw [wrun_stub_add]
        exact ⟨h1, h2.trans hm3⟩

theorem byte_pushed {C : Nat} (hC : SizeOK C) (stub : Nat → xencons_interface → Nat)
    (hfair : ∀ i r, pending r = C → ∃ j, 1 ≤ stub (i + j) r)
    (c : WriteCfg) (hinv : WInv C c) (hc : c.pc = .head) (hd : deref c.message ≠ 0) :
    ∃ n, (wrun C (notifyStub stub) n c).pc = .head ∧
      (wrun C (notifyStub stub) n c).message = c.message.tail := by
  have h1 := round_head C stub c hc
  rw [if_pos hd] at h1
  have hinv1 := wrun_inv hC (notifyStub stub) c hinv 1
  have hc1 : (wrun C (notifyStub stub) 1 c).pc = .poll := by rw [h1]
  have hm1 : (wrun C (notifyStub stub) 1 c).message = c.message := by rw [h1]
  have hj : ∃ j, pending (wrun C (notifyStub stub) 1 c).w.ring = C →
      1 ≤ stub ((wrun C (notifyStub stub) 1 c).w.sent.length + j)
        (wrun C (notifyStub stub) 1 c).w.ring := by
    by_cases hf : pending (wrun C (notifyStub stub) 1 c).w.ring = C
    · obtain ⟨j, hj⟩ := hfair (wrun C (notifyStub stub) 1 c).w.sent.length _ hf
      exact ⟨j, fun _ => hj⟩
    · exact ⟨0, fun h => absurd h hf⟩
  obtain ⟨j, hj⟩ := hj
  obtain ⟨n, hc2, hm2⟩ := poll_exit hC stub j _ hinv1 hc1 hj
  have e2 : wrun C (notifyStub stub) (1 + n) c =
      wrun C (notifyStub stub) n (wrun C (notifyStub stub) 1 c) := wrun_stub_add C stub 1 n c
  rw [← e2] at hc2 hm2
  have hinv2 := wrun_inv hC (notifyStub stub) c hinv (1 + n)
  have h3 := round_store hC stub _ hc2 hinv2.1.1
  have h4 := round_incr C stub (wrun C (notifyStub stub) 1 (wrun C (notifyStub stub) (1 + n) c))
    (by rw [h3])
  refine ⟨1 + n + 1 + 1, ?_⟩
  rw [wrun_stub_add C stub (1 + n + 1) 1, wrun_stub_add C stub (1 + n) 1, h4]
  refine ⟨rfl, ?_⟩
  show (wrun C (notifyStub stub) 1 (wrun C (notifyStub stub) (1 + n) c)).message.tail = _
  rw [h3]
  show (wrun C (notifyStub stub) (1 + n) c).message.tail = _
  rw [hm2, hm1]

theorem write_terminates_aux {C : Nat} (hC : SizeOK C) (stub : Nat → xencons_interface → Nat)
    (hfair : ∀ i r, pending r = C → ∃ j, 1 ≤ stub (i + j) r) (k : Nat) :
    ∀ c : WriteCfg, strlen c.message = k → WInv C c → c.pc = .head →
      ∃ n, (wrun C (notifyStub stub) n c).pc = .done := by
  induction k with
  | zero =>
    intro c hk hinv hc
    have hd : deref c.message = 0 := by
      by_contra hne
      have := strlen_tail c.message hne
      omega
    have h1 := round_head C stub c hc
    rw [if_neg (not_not.mpr hd)] at h1
    refine ⟨1 + 1, ?_⟩
    rw [wrun_stub_add]
    exact round_final C stub _ (by rw [h1])
  | succ k ih =>
    intro c hk hinv hc
    have hd : deref c.message ≠ 0 := by
      intro hz
      have := strlen_zero _ hz
      omega
    obtain ⟨n, hc1, hm1⟩ := byte_pushed hC stub hfair c hinv hc hd
    have hinv1 := wrun_inv hC (notifyStub stub) c hinv n
    have hk1 : strlen (wrun C (notifyStub stub) n c).message = k := by
      rw [hm1]
      have := strlen_tail c.message hd
      omega
    obtain ⟨n2, h2⟩ := ih _ hk1 hinv1 hc1
    refine ⟨n + n2, ?_⟩
    rw [wrun_stub_add]
    exact h2

/-! ## `console_flush` -/

theorem drain_idle (C : Nat) (w : World) (h : w.ring.out_cons = w.ring.out_prod) :
    drain C w = w := by
  unfold drain
  rw [if_pos h]

theorem drains_idle (C : Nat) (e : Nat) (w : World) (h : w.ring.out_cons = w.ring.out_prod) :
    drains C e w = w := by
  induction e with
  | zero => rfl
  | succ e ih => simp only [drains]; rw [drain_idle C w h, ih]

theorem drain_le (C : Nat) (w : World) (hle : w.ring.out_cons ≤ w.ring.out_prod)
    (hprod : w.ring.out_prod < IDX_MOD) :
    (drain C w).ring.out_cons ≤ (drain C w).ring.out_prod := by
  unfold drain
  split
  · exact hle
  · simp only [IDX_MOD] at *
    omega

theorem drains_le (C : Nat) (e : Nat) (w : World) (hle : w.ring.out_cons ≤ w.ring.out_prod)
    (hprod : w.ring.out_prod < IDX_MOD) :
    (drains C e w).ring.out_cons ≤ (drains C e w).ring.out_prod := by
  induction e generalizing w with
  | zero => exact hle
  | succ e ih =>
    simp only [drains]
    exact ih _ (drain_le C w hle hprod) (by rw [drain_out_prod]; exact hprod)

theorem frun_stub_add (C : Nat) (stub : Nat → xencons_interface → Nat) (a b : Nat)
    (c : FlushCfg) :
    frun C (yieldStub stub) (a + b) c =
      frun C (yieldStub stub) b (frun C (yieldStub stub) a c) := by
  induction b with
  | zero => rfl
  | succ b ih =>
    have e : frun C (yieldStub stub) (a + (b + 1)) c =
        fround C (yieldStub stub (a + b) (frun C (yieldStub stub) (a + b) c))
          (frun C (yieldStub stub) (a + b) c) := rfl
    rw [e, ih]
    rfl

theorem flush_two_rounds (C : Nat) (stub : Nat → xencons_interface → Nat) (w : World)
    (h : w.ring.out_cons < w.ring.out_prod) :
    frun C (yieldStub stub) 2 (console_flush_entry w) =
      console_flush_entry
        (drains C (stub w.yields w.ring) { w with yields := w.yields + 1 }) := by
  simp [frun, fround, fstep, yieldStub, console_flush_entry, h, drains]

theorem flush_returns (C : Nat) (stub : Nat → xencons_interface → Nat) (k : Nat) :
    ∀ w : World,
      (afterYields C stub k w).ring.out_cons = (afterYields C stub k w).ring.out_prod →
      ∃ n, (frun C (yieldStub stub) n (console_flush_entry w)).pc = .done ∧
        (frun C (yieldStub stub) n (console_flush_entry w)).w.yields ≤ w.yields + k := by
  induction k with
  | zero =>
    intro w h
    refine ⟨1, ?_⟩
    have hn : ¬ w.ring.out_cons < w.ring.out_prod := by
      simp only [afterYields] at h
      omega
    simp [frun, fround, fstep, console_flush_entry, hn, drains_yields]
  | succ k ih =>
    intro w h
    by_cases hlt : w.ring.out_cons < w.ring.out_prod
    · obtain ⟨n, h1, h2⟩ := ih _ h
      refine ⟨2 + n, ?_⟩
      rw [frun_stub_add, flush_two_rounds C stub w hlt]
      refine ⟨h1, le_trans h2 ?_⟩
      rw [drains_yields]
      show w.yields + 1 + k ≤ w.yields + (k + 1)
      omega
    · refine ⟨1, ?_⟩
      simp [frun, fround, fstep, console_flush_entry, hlt, drains_yields]

theorem flush_blocked (C : Nat) (env : Nat → FlushCfg → Nat) (w : World)
    (hlt : w.ring.out_cons < w.ring.out_prod)
    (henv : ∀ i c, c.w.ring.out_cons < c.w.ring.out_prod → env i c = 0) (n : Nat) :
    (frun C env n (console_flush_entry w)).pc ≠ .done ∧
    (frun C env n (console_flush_entry w)).w.ring = w.ring := by
  induction n with
  | zero => exact ⟨by simp [frun, console_flush_entry], rfl⟩
  | succ n ih =>
    obtain ⟨hpc, hr⟩ := ih
    have hlt2 : (frun C env n (console_flush_entry w)).w.ring.out_cons <
        (frun C env n (console_flush_entry w)).w.ring.out_prod := by rw [hr]; exact hlt
    have he := henv n _ hlt2
    simp only [frun, he]
    generalize frun C env n (console_flush_entry w) = c at *
    cases hc : c.pc with
    | check => simp [fround, fstep, hc, drains, hr, hlt]
    | sched => simp [fround, fstep, hc, drains, hr]
    | done => exact absurd hc hpc

theorem fround_pc (C : Nat) (e : Nat) (c : FlushCfg) : (fround C e c).pc = (fstep c).pc := rfl

theorem fround_yields (C : Nat) (e : Nat) (c : FlushCfg) :
    (fround C e c).w.yields = (fstep c).w.yields := by
  simp only [fround, drains_yields]

theorem fstep_yield_count (c : FlushCfg) :
    (fstep c).w.yields + (if (fstep c).pc = .sched then 1 else 0) =
      c.w.yields + (if c.pc = .sched then 1 else 0) +
        (if c.pc = .check ∧ c.w.ring.out_cons < c.w.ring.out_prod then 1 else 0) := by
  cases hc : c.pc with
  | check =>
    by_cases hlt : c.w.ring.out_cons < c.w.ring.out_prod
    · simp [fstep, hc, hlt]
    · simp [fstep, hc, hlt]
  | sched => simp [fstep, hc]
  | done => simp [fstep, hc]

theorem flush_yield_count (C : Nat) (env : Nat → FlushCfg → Nat) (c0 : FlushCfg) (n : Nat) :
    (frun C env n c0).w.yields + (if (frun C env n c0).pc = .sched then 1 else 0) =
      c0.w.yields + (if c0.pc = .sched then 1 else 0) + blockedChecks C env c0 n := by
  induction n with
  | zero => rfl
  | succ n ih =>
    simp only [frun, blockedChecks, fround_pc, fround_yields]
    rw [fstep_yield_count, ih]
    omega

theorem flush_caught_up (C : Nat) (env : Nat → FlushCfg → Nat) (w0 : World)
    (hle : w0.ring.out_cons ≤ w0.ring.out_prod) (hprod : w0.ring.out_prod < IDX_MOD) (n : Nat) :
    (frun C env n (console_flush_entry w0)).w.ring.out_cons ≤
      (frun C env n (console_flush_entry w0)).w.ring.out_prod ∧
    (frun C env n (console_flush_entry w0)).w.ring.out_prod < IDX_MOD ∧
    ((frun C env n (console_flush_entry w0)).pc = .done →
      (frun C env n (console_flush_entry w0)).w.ring.out_cons =
        (frun C env n (console_flush_entry w0)).w.ring.out_prod) := by
  induction n with
  | zero =>
    refine ⟨hle, hprod, ?_⟩
    intro h
    simp [frun, console_flush_entry] at h
  | succ n ih =>
    obtain ⟨h1, h2, h3⟩ := ih
    simp only [frun]
    generalize frun C env n (console_flush_entry w0) = c at *
    generalize env n c = e
    have hw : (fstep c).w.ring = c.w.ring := by
      unfold fstep
      cases c.pc with
      | check => simp only; split <;> rfl
      | sched => rfl
      | done => rfl
    have hle2 : (fstep c).w.ring.out_cons ≤ (fstep c).w.ring.out_prod := by rw [hw]; exact h1
    have hp2 : (fstep c).w.ring.out_prod < IDX_MOD := by rw [hw]; exact h2
    refine ⟨drains_le C e _ hle2 hp2, by simp only [fround, drains_out_prod]; exact hp2, ?_⟩
    intro hd
    have hd2 : (fstep c).pc = .done := hd
    have heq : (fstep c).w.ring.out_cons = (fstep c).w.ring.out_prod := by
      rw [hw]
      cases hc : c.pc with
      | check =>
        by_cases hlt : c.w.ring.out_cons < c.w.ring.out_prod
        · simp [fstep, hc, hlt] at hd2
        · omega
      | sched => simp [fstep, hc] at hd2
      | done => exact h3 hc
    simp only [fround]
    rw [drains_idle C e _ heq]
    exact heq

/-! ## Frames -/

theorem wround_pc (C : Nat) (e : Nat) (c : WriteCfg) : (wround C e c).pc = (wstep C c).pc := rfl

theorem wround_message (C : Nat) (e : Nat) (c : WriteCfg) :
    (wround C e c).message = (wstep C c).message := rfl

theorem wround_length (C : Nat) (e : Nat) (c : WriteCfg) :
    (wround C e c).length = (wstep C c).length := rfl

theorem wround_port (C : Nat) (e : Nat) (c : WriteCfg) :
    (wround C e c).port = (wstep C c).port := rfl

theorem wround_data (C : Nat) (e : Nat) (c : WriteCfg) :
    (wround C e c).data = (wstep C c).data := rfl

theorem wround_sent (C : Nat) (e : Nat) (c : WriteCfg) :
    (wround C e c).w.sent = (wstep C c).w.sent := by
  simp only [wround, drains_sent]

theorem wround_yields (C : Nat) (e : Nat) (c : WriteCfg) :
    (wround C e c).w.yields = (wstep C c).w.yields := by
  simp only [wround, drains_yields]

theorem wround_out (C : Nat) (e : Nat) (c : WriteCfg) :
    (wround C e c).w.ring.out = (wstep C c).w.ring.out := by
  simp only [wround, drains_out]

theorem wround_out_prod (C : Nat) (e : Nat) (c : WriteCfg) :
    (wround C e c).w.ring.out_prod = (wstep C c).w.ring.out_prod := by
  simp only [wround, drains_out_prod]

theorem drain_input (C : Nat) (w : World) :
    (drain C w).ring.in_ring = w.ring.in_ring ∧ (drain C w).ring.in_cons = w.ring.in_cons ∧
    (drain C w).ring.in_prod = w.ring.in_prod := by
  unfold drain; split <;> exact ⟨rfl, rfl, rfl⟩

theorem drains_input (C : Nat) (e : Nat) (w : World) :
    (drains C e w).ring.in_ring = w.ring.in_ring ∧
    (drains C e w).ring.in_cons = w.ring.in_cons ∧
    (drains C e w).ring.in_prod = w.ring.in_prod := by
  induction e generalizing w with
  | zero => exact ⟨rfl, rfl, rfl⟩
  | succ e ih =>
    simp only [drains]
    obtain ⟨h1, h2, h3⟩ := ih (drain C w)
    obtain ⟨g1, g2, g3⟩ := drain_input C w
    exact ⟨h1.trans g1, h2.trans g2, h3.trans g3⟩

/-- The consumer advances `out_cons` by the number of bytes it reads. -/
theorem drain_cons (C : Nat) (w : World) (k : Nat) (c0 : Nat)
    (h : w.ring.out_cons = (c0 + k) % IDX_MOD) :
    ∃ d, (drain C w).seen.length = w.seen.length + d ∧
      (drain C w).ring.out_cons = (c0 + (k + d)) % IDX_MOD := by
  unfold drain
  split
  · exact ⟨0, rfl, h⟩
  · refine ⟨1, by simp, ?_⟩
    show (w.ring.out_cons + 1) % IDX_MOD = _
    rw [h]
    simp only [IDX_MOD]
    omega

theorem drains_cons (C : Nat) (e : Nat) (w : World) (k : Nat) (c0 : Nat)
    (h : w.ring.out_cons = (c0 + k) % IDX_MOD) :
    ∃ d, (drains C e w).seen.length = w.seen.length + d ∧
      (drains C e w).ring.out_cons = (c0 + (k + d)) % IDX_MOD := by
  induction e generalizing w k with
  | zero => exact ⟨0, rfl, h⟩
  | succ e ih =>
    simp only [drains]
    obtain ⟨d1, h1, h2⟩ := drain_cons C w k c0 h
    obtain ⟨d2, h3, h4⟩ := ih (drain C w) (k + d1) h2
    exact ⟨d1 + d2, by omega, by rw [h4]; congr 2; omega⟩

/-- What a step of `console_write` leaves alone: everything in the world but
`out`, `out_prod` and the notifications sent. -/
theorem wstep_frame (C : Nat) (c : WriteCfg) :
    (wstep C c).w.yields = c.w.yields ∧ (wstep C c).w.seen = c.w.seen ∧
    (wstep C c).w.ring.out_cons = c.w.ring.out_cons ∧
    (wstep C c).w.ring.in_ring = c.w.ring.in_ring ∧
    (wstep C c).w.ring.in_cons = c.w.ring.in_cons ∧
    (wstep C c).w.ring.in_prod = c.w.ring.in_prod ∧
    (wstep C c).port = c.port := by
  unfold wstep
  cases c.pc with
  | head => simp only; split <;> exact ⟨rfl, rfl, rfl, rfl, rfl, rfl, rfl⟩
  | poll => exact ⟨rfl, rfl, rfl, rfl, rfl, rfl, rfl⟩
  | send => exact ⟨rfl, rfl, rfl, rfl, rfl, rfl, rfl⟩
  | check => simp only; split <;> exact ⟨rfl, rfl, rfl, rfl, rfl, rfl, rfl⟩
  | store => simp only; split <;> exact ⟨rfl, rfl, rfl, rfl, rfl, rfl, rfl⟩
  | incr => exact ⟨rfl, rfl, rfl, rfl, rfl, rfl, rfl⟩
  | final => exact ⟨rfl, rfl, rfl, rfl, rfl, rfl, rfl⟩
  | done => exact ⟨rfl, rfl, rfl, rfl, rfl, rfl, rfl⟩
  | fault => exact ⟨rfl, rfl, rfl, rfl, rfl, rfl, rfl⟩

theorem wrun_frame (C : Nat) (env : Nat → WriteCfg → Nat) (c0 : WriteCfg) (n : Nat) :
    (wrun C env n c0).w.yields = c0.w.yields ∧
    (wrun C env n c0).w.ring.in_ring = c0.w.ring.in_ring ∧
    (wrun C env n c0).w.ring.in_cons = c0.w.ring.in_cons ∧
    (wrun C env n c0).w.ring.in_prod = c0.w.ring.in_prod ∧
    (wrun C env n c0).port = c0.port := by
  induction n with
  | zero => exact ⟨rfl, rfl, rfl, rfl, rfl⟩
  | succ n ih =>
    obtain ⟨h1, h2, h3, h4, h5⟩ := ih
    obtain ⟨g1, _, _, g4, g5, g6, g7⟩ := wstep_frame C (wrun C env n c0)
    obtain ⟨d1, d2, d3⟩ := drains_input C (env n (wrun C env n c0)) (wstep C (wrun C env n c0)).w
    simp only [wrun]
    refine ⟨?_, ?_, ?_, ?_, ?_⟩
    · rw [wround_yields, g1, h1]
    · exact d1.trans (g4.trans h2)
    · exact d2.trans (g5.trans h3)
    · exact d3.trans (g6.trans h4)
    · rw [wround_port, g7, h5]

theorem wrun_cons (C : Nat) (env : Nat → WriteCfg → Nat) (c0 : WriteCfg)
    (hcons : c0.w.ring.out_cons < IDX_MOD) (n : Nat) :
    ∃ k, (wrun C env n c0).w.seen.length = c0.w.seen.length + k ∧
      (wrun C env n c0).w.ring.out_cons = (c0.w.ring.out_cons + k) % IDX_MOD := by
  induction n with
  | zero => exact ⟨0, rfl, (Nat.mod_eq_of_lt hcons).symm⟩
  | succ n ih =>
    obtain ⟨k, h1, h2⟩ := ih
    obtain ⟨_, g2, g3, _⟩ := wstep_frame C (wrun C env n c0)
    obtain ⟨d, e1, e2⟩ := drains_cons C (env n (wrun C env n c0))
      (wstep C (wrun C env n c0)).w k c0.w.ring.out_cons (g3.trans h2)
    refine ⟨k + d, ?_, e2⟩
    show (drains C _ (wstep C (wrun C env n c0)).w).seen.length = _
    rw [e1, g2, h1]
    omega

theorem wstep_out_cases {C : Nat} (hC : SizeOK C) (c : WriteCfg) :
    (wstep C c).w.ring.out = c.w.ring.out ∨
    (c.pc = .store ∧
      (wstep C c).w.ring.out =
        c.w.ring.out.set (c.w.ring.out_prod % C) (deref c.message)) := by
  cases hc : c.pc with
  | store =>
    unfold wstep
    simp only [hc, ring_index_eq hC, Int.toNat_ofNat]
    split
    · exact Or.inr ⟨trivial, rfl⟩
    · exact Or.inl rfl
  | head => left; unfold wstep; simp only [hc]; split <;> rfl
  | check => left; unfold wstep; simp only [hc]; split <;> rfl
  | poll => left; unfold wstep; simp only [hc]
  | send => left; unfold wstep; simp only [hc]
  | incr => left; unfold wstep; simp only [hc]
  | final => left; unfold wstep; simp only [hc]
  | done => left; unfold wstep; simp only [hc]
  | fault => left; unfold wstep; simp only [hc]

theorem wstep_out_cell {C : Nat} (hC : SizeOK C) (m0 : List Nat) (w0 : World) (port k : Nat)
    (c : WriteCfg) (h : Cnt m0 w0 port k c) (i : Nat)
    (hi : ∀ j, j < strlen m0 → (w0.ring.out_prod + j) % C ≠ i) :
    (wstep C c).w.ring.out.getD i 0 = c.w.ring.out.getD i 0 := by
  rcases wstep_out_cases hC c with e | ⟨hc, e⟩
  · rw [e]
  · obtain ⟨_, hle, _, hprod, _, hd⟩ := h
    rw [hc] at hd
    have hd2 : deref c.message ≠ 0 := hd
    have ht := strlen_tail c.message hd2
    have hne : c.w.ring.out_prod % C ≠ i := by
      rw [hprod, Nat.mod_mod_of_dvd _ hC.dvd]
      exact hi _ (by omega)
    rw [e, List.getD_eq_getElem?_getD, List.getD_eq_getElem?_getD, List.getElem?_set_ne hne]

theorem wrun_out_cell {C : Nat} (hC : SizeOK C) (env : Nat → WriteCfg → Nat) (port : Nat)
    (m : List Nat) (w0 : World) (hprod : w0.ring.out_prod < IDX_MOD) (i : Nat)
    (hi : ∀ j, j < strlen m → (w0.ring.out_prod + j) % C ≠ i) (n : Nat) :
    (wrun C env n (console_write_entry port m w0)).w.ring.out.getD i 0 =
      w0.ring.out.getD i 0 := by
  induction n with
  | zero => rfl
  | succ n ih =>
    simp only [wrun]
    rw [wround_out, wstep_out_cell hC m w0 port _ _ (wrun_cnt C env port m w0 hprod n) i hi, ih]

theorem fstep_world (c : FlushCfg) :
    (fstep c).w.ring = c.w.ring ∧ (fstep c).w.sent = c.w.sent ∧ (fstep c).w.seen = c.w.seen := by
  unfold fstep
  cases c.pc with
  | check => simp only; split <;> exact ⟨rfl, rfl, rfl⟩
  | sched => exact ⟨rfl, rfl, rfl⟩
  | done => exact ⟨rfl, rfl, rfl⟩

theorem frun_frame (C : Nat) (env : Nat → FlushCfg → Nat) (c0 : FlushCfg) (n : Nat) :
    (frun C env n c0).w.sent = c0.w.sent ∧
    (frun C env n c0).w.ring.out = c0.w.ring.out ∧
    (frun C env n c0).w.ring.out_prod = c0.w.ring.out_prod ∧
    (frun C env n c0).w.ring.in_ring = c0.w.ring.in_ring ∧
    (frun C env n c0).w.ring.in_cons = c0.w.ring.in_cons ∧
    (frun C env n c0).w.ring.in_prod = c0.w.ring.in_prod := by
  induction n with
  | zero => exact ⟨rfl, rfl, rfl, rfl, rfl, rfl⟩
  | succ n ih =>
    obtain ⟨h1, h2, h3, h4, h5, h6⟩ := ih
    obtain ⟨g1, g2, _⟩ := fstep_world (frun C env n c0)
    obtain ⟨d1, d2, d3⟩ := drains_input C (env n (frun C env n c0)) (fstep (frun C env n c0)).w
    simp only [frun, fround]
    refine ⟨?_, ?_, ?_, ?_, ?_, ?_⟩
    · rw [drains_sent, g2, h1]
    · rw [drains_out, g1, h2]
    · rw [drains_out_prod, g1, h3]
    · rw [d1, g1, h4]
    · rw [d2, g1, h5]
    · rw [d3, g1, h6]

theorem frun_cons (C : Nat) (env : Nat → FlushCfg → Nat) (c0 : FlushCfg)
    (hcons : c0.w.ring.out_cons < IDX_MOD) (n : Nat) :
    ∃ k, (frun C env n c0).w.seen.length = c0.w.seen.length + k ∧
      (frun C env n c0).w.ring.out_cons = (c0.w.ring.out_cons + k) % IDX_MOD := by
  induction n with
  | zero => exact ⟨0, rfl, (Nat.mod_eq_of_lt hcons).symm⟩
  | succ n ih =>
    obtain ⟨k, h1, h2⟩ := ih
    obtain ⟨g1, _, g3⟩ := fstep_world (frun C env n c0)
    obtain ⟨d, e1, e2⟩ := drains_cons C (env n (frun C env n c0))
      (fstep (frun C env n c0)).w k c0.w.ring.out_cons (by rw [g1]; exact h2)
    refine ⟨k + d, ?_, e2⟩
    show (drains C _ (fstep (frun C env n c0)).w).seen.length = _
    rw [e1, g3, h1]
    omega

theorem wrun_out_length {C : Nat} (hC : SizeOK C) (env : Nat → WriteCfg → Nat) (c0 : WriteCfg)
    (n : Nat) : (wrun C env n c0).w.ring.out.length = c0.w.ring.out.length := by
  induction n with
  | zero => rfl
  | succ n ih =>
    simp only [wrun]
    rw [wround_out]
    rcases wstep_out_cases hC (wrun C env n c0) with e | ⟨_, e⟩
    · rw [e, ih]
    · rw [e, List.length_set, ih]

/-! ## Indexing -/

theorem ring_index_small {C : Nat} (hpos : 0 < C) (hle : C ≤ 2147483648) (p : Nat) :
    toInt32 (MASK_XENCONS_IDX p C : Nat) = ((MASK_XENCONS_IDX p C : Nat) : Int) ∧
    MASK_XENCONS_IDX p C < C := by
  have h : MASK_XENCONS_IDX p C ≤ C - 1 := Nat.and_le_right
  exact ⟨toInt32_small _ (by omega), by omega⟩

theorem wstep_nofault {C : Nat} (hpos : 0 < C) (hle : C ≤ 2147483648) (c : WriteCfg)
    (hlen : c.w.ring.out.length = C) (hpc : c.pc ≠ .fault) :
    (wstep C c).pc ≠ .fault ∧ (wstep C c).w.ring.out.length = C := by
  cases hc : c.pc with
  | store =>
    obtain ⟨h1, h2⟩ := ring_index_small hpos hle c.w.ring.out_prod
    unfold wstep
    simp only [hc, h1, Int.toNat_ofNat, hlen]
    rw [if_pos ⟨Int.ofNat_nonneg _, h2⟩]
    exact ⟨by simp, by simp [hlen]⟩
  | head => unfold wstep; simp only [hc]; split <;> exact ⟨by simp, hlen⟩
  | check => unfold wstep; simp only [hc]; split <;> exact ⟨by simp, hlen⟩
  | poll => unfold wstep; simp only [hc]; exact ⟨by simp, hlen⟩
  | send => unfold wstep; simp only [hc]; exact ⟨by simp, hlen⟩
  | incr => unfold wstep; simp only [hc]; exact ⟨by simp, hlen⟩
  | final => unfold wstep; simp only [hc]; exact ⟨by simp, hlen⟩
  | done => unfold wstep; simp only [hc]; exact ⟨by simp [hc], hlen⟩
  | fault => exact absurd hc hpc

theorem wrun_nofault {C : Nat} (hpos : 0 < C) (hle : C ≤ 2147483648)
    (env : Nat → WriteCfg → Nat) (c0 : WriteCfg) (hlen : c0.w.ring.out.length = C)
    (hpc : c0.pc ≠ .fault) (n : Nat) :
    (wrun C env n c0).pc ≠ .fault ∧ (wrun C env n c0).w.ring.out.length = C := by
  induction n with
  | zero => exact ⟨hpc, hlen⟩
  | succ n ih =>
    obtain ⟨h1, h2⟩ := wstep_nofault hpos hle _ ih.2 ih.1
    simp only [wrun]
    exact ⟨by rw [wround_pc]; exact h1, by rw [wround_out]; exact h2⟩

/-! ## The push step -/

theorem wrun_stream {C : Nat} (hC : SizeOK C) (env : Nat → WriteCfg → Nat) (c : WriteCfg)
    (h : WInv C c) (n : Nat) : stream C (wrun C env n c) = stream C c := by
  induction n with
  | zero => rfl
  | succ n ih =>
    have hi := wrun_inv hC env c h n
    have hs := wstep_inv hC _ hi
    simp only [wrun, wround]
    rw [drains_stream _ _ hs.1, wstep_stream hC _ hi, ih]

theorem content_slice (seen cont rest total : List Nat) (h : seen ++ cont ++ rest = total) :
    cont = (total.drop seen.length).take cont.length := by
  rw [← h, List.append_assoc, List.drop_left, List.take_left]

/-! ## Notifications -/

theorem wstep_sent_cases (C : Nat) (c : WriteCfg) :
    (wstep C c).w.sent = c.w.sent ∨ (wstep C c).w.sent = c.w.sent ++ [c.port] := by
  unfold wstep
  cases c.pc with
  | head => left; simp only; split <;> rfl
  | poll => left; rfl
  | send => right; rfl
  | check => left; simp only; split <;> rfl
  | store => left; simp only; split <;> rfl
  | incr => left; rfl
  | final => right; rfl
  | done => left; rfl
  | fault => left; rfl

theorem wrun_sent_port (C : Nat) (env : Nat → WriteCfg → Nat) (c0 : WriteCfg) (n : Nat) :
    ∃ k, (wrun C env n c0).w.sent = c0.w.sent ++ List.replicate k c0.port := by
  induction n with
  | zero => exact ⟨0, by simp [wrun]⟩
  | succ n ih =>
    obtain ⟨k, hk⟩ := ih
    have hp := (wrun_frame C env c0 n).2.2.2.2
    simp only [wrun]
    rcases wstep_sent_cases C (wrun C env n c0) with e | e
    · exact ⟨k, by rw [wround_sent, e, hk]⟩
    · refine ⟨k + 1, ?_⟩
      rw [wround_sent, e, hk, hp, List.replicate_succ', List.append_assoc]

theorem wstep_at_poll (C : Nat) (c : WriteCfg) (hc : c.pc = .poll) :
    (wstep C c).pc = .send ∧ (wstep C c).data = pending c.w.ring ∧
    (wstep C c).w.sent = c.w.sent := by
  unfold wstep; simp only [hc]; exact ⟨trivial, trivial, trivial⟩

theorem wstep_at_send (C : Nat) (c : WriteCfg) (hc : c.pc = .send) :
    (wstep C c).pc = .check ∧ (wstep C c).data = c.data ∧
    (wstep C c).w.sent = c.w.sent ++ [c.port] := by
  unfold wstep; simp only [hc]; exact ⟨trivial, trivial, trivial⟩

theorem wstep_at_check_full (C : Nat) (c : WriteCfg) (hc : c.pc = .check) (hf : C ≤ c.data) :
    (wstep C c).pc = .poll ∧ (wstep C c).w.sent = c.w.sent := by
  unfold wstep; simp only [hc]; rw [if_pos hf]; exact ⟨rfl, rfl⟩

theorem wstep_at_end (C : Nat) (c : WriteCfg) (hc : c.pc = .head) (hz : deref c.message = 0) :
    (wstep C c).pc = .final ∧ (wstep C c).w.sent = c.w.sent := by
  unfold wstep; simp only [hc]; rw [if_neg (not_not.mpr hz)]; exact ⟨rfl, rfl⟩

theorem wstep_at_final (C : Nat) (c : WriteCfg) (hc : c.pc = .final) :
    (wstep C c).pc = .done ∧ (wstep C c).w.sent = c.w.sent ++ [c.port] ∧
    (wstep C c).length = c.length := by
  unfold wstep; simp only [hc]; exact ⟨trivial, trivial, trivial⟩

theorem wstep_at_done (C : Nat) (c : WriteCfg) (hc : c.pc = .done) : wstep C c = c := by
  unfold wstep; simp only [hc]

theorem wrun_after_done (C : Nat) (env : Nat → WriteCfg → Nat) (c0 : WriteCfg) (n : Nat)
    (hd : (wrun C env n c0).pc = .done) (k : Nat) :
    (wrun C env (n + k) c0).pc = .done ∧
    (wrun C env (n + k) c0).w.sent = (wrun C env n c0).w.sent ∧
    (wrun C env (n + k) c0).length = (wrun C env n c0).length ∧
    (wrun C env (n + k) c0).w.ring.out = (wrun C env n c0).w.ring.out ∧
    (wrun C env (n + k) c0).w.ring.out_prod = (wrun C env n c0).w.ring.out_prod := by
  induction k with
  | zero => exact ⟨hd, rfl, rfl, rfl, rfl⟩
  | succ k ih =>
    obtain ⟨h1, h2, h3, h4, h5⟩ := ih
    have e : wrun C env (n + (k + 1)) c0 =
        wround C (env (n + k) (wrun C env (n + k) c0)) (wrun C env (n + k) c0) := rfl
    rw [e]
    refine ⟨?_, ?_, ?_, ?_, ?_⟩
    · rw [wround_pc, wstep_at_done C _ h1, h1]
    · rw [wround_sent, wstep_at_done C _ h1, h2]
    · rw [wround_length, wstep_at_done C _ h1, h3]
    · rw [wround_out, wstep_at_done C _ h1, h4]
    · rw [wround_out_prod, wstep_at_done C _ h1, h5]

/-! ## Wrap-around and NUL termination -/

theorem pending_true_count {C : Nat} (hC : SizeOK C) (P Q : Nat) (hQP : Q ≤ P)
    (hcap : P - Q ≤ C) (r : xencons_interface) (hp : r.out_prod = P % IDX_MOD)
    (hq : r.out_cons = Q % IDX_MOD) : pending r = P - Q := by
  have hCle := hC.le
  simp only [pending, IDX_MOD] at *
  omega

theorem succ_mod_slot {C : Nat} (hC : SizeOK C) (P : Nat) :
    ((P % IDX_MOD + 1) % IDX_MOD) % C = (P % C + 1) % C := by
  rw [Nat.mod_mod_of_dvd _ hC.dvd, Nat.add_mod (P % IDX_MOD) 1 C, Nat.mod_mod_of_dvd _ hC.dvd,
    Nat.add_mod (P % C) 1 C, Nat.mod_mod]

/-- Why `SizeOK` stops at `2 ^ 31`: a ring of `2 ^ 32` bytes that is full
has equal counters, so the computed `pending` is 0 and the test of line 47
lets the store go ahead. -/
theorem size_bound_needed :
    ringFull32.out_prod = 4294967296 % IDX_MOD ∧ ringFull32.out_cons = 0 % IDX_MOD ∧
    pending ringFull32 = 0 ∧ (wstep 4294967296 checkFull32).pc = .store := by
  decide

/-! ## Long messages and the unguarded stub -/

theorem cstr_replicate (n b : Nat) (hb : b ≠ 0) : cstr (List.replicate n b) = List.replicate n b := by
  induction n with
  | zero => rfl
  | succ n ih =>
    rw [List.replicate_succ, cstr, if_neg hb, ih]

theorem strlen_replicate (n b : Nat) (hb : b ≠ 0) : strlen (List.replicate n b) = n := by
  unfold strlen
  rw [cstr_replicate n b hb, List.length_replicate]

/-- A message of `2 ^ 31` bytes: the call returns, and the count it returns
is `-2 ^ 31`. -/
theorem long_message_count (m : List Nat) (hs : strlen m = 2147483648) :
    ∃ n, (wrun 8 (notifyStub (fun _ _ => 1)) n (console_write_entry 7 m world8)).pc = .done ∧
      (wrun 8 (notifyStub (fun _ _ => 1)) n (console_write_entry 7 m world8)).length =
        -2147483648 := by
  have hC : SizeOK 8 := ⟨3, by decide, by decide⟩
  have hwf : RingWF 8 world8.ring := ⟨rfl, by decide, by decide⟩
  have h0 : pending world8.ring ≤ 8 := by decide
  obtain ⟨n, hn⟩ := write_terminates_aux hC (fun _ _ => 1) (fun _ _ _ => ⟨0, le_refl 1⟩)
    (strlen m) (console_write_entry 7 m world8) rfl ⟨hwf, h0, trivial⟩ rfl
  refine ⟨n, hn, ?_⟩
  obtain ⟨_, _, h3, _, _, h6⟩ := wrun_cnt 8 (notifyStub (fun _ _ => 1)) 7 m world8 hwf.2.1 n
  rw [hn] at h6
  have hz := strlen_zero _ h6
  rw [hz, Nat.sub_zero, hs] at h3
  rw [h3]
  decide

theorem gulps_seen (C : Nat) (k : Nat) (w : World) :
    ∃ rest, (gulps C k w).seen = w.seen ++ rest := by
  induction k generalizing w with
  | zero => exact ⟨[], by simp [gulps]⟩
  | succ k ih =>
    obtain ⟨rest, h⟩ := ih (gulp C w)
    exact ⟨[w.ring.out.getD (w.ring.out_cons % C) 0] ++ rest, by
      simp only [gulps]
      rw [h]
      simp [gulp]⟩

theorem wroundRaw_seen (C : Nat) (k : Nat) (c : WriteCfg) :
    ∃ rest, (wroundRaw C k c).w.seen = c.w.seen ++ rest := by
  have hs := (wstep_frame C c).2.1
  unfold wroundRaw
  split
  · obtain ⟨rest, h⟩ := gulps_seen C k (wstep C c).w
    exact ⟨rest, by rw [← hs]; exact h⟩
  · exact ⟨[], by rw [hs]; simp⟩

theorem wrunRaw_seen (C : Nat) (k : Nat) (c : WriteCfg) (a n : Nat) :
    ∃ rest, (wrunRaw C k (a + n) c).w.seen = (wrunRaw C k a c).w.seen ++ rest := by
  induction n with
  | zero => exact ⟨[], by simp⟩
  | succ n ih =>
    obtain ⟨r1, h1⟩ := ih
    obtain ⟨r2, h2⟩ := wroundRaw_seen C k (wrunRaw C k (a + n) c)
    refine ⟨r1 ++ r2, ?_⟩
    have e : wrunRaw C k (a + (n + 1)) c = wroundRaw C k (wrunRaw C k (a + n) c) := rfl
    rw [e, h2, h1, List.append_assoc]

/-! ## The claims -/

/-- C1, as amended.  From any well-formed ring state satisfying the capacity
invariant, for every sequence of `console_write` calls and every interleaving
of consumer steps, the bytes read by the consumer are, in order, an initial
segment of the bytes that were pending in the ring at the start followed by
the concatenation of the messages in call order; and they are all of them
once the last call has returned and `out_cons = out_prod`. -/
theorem no_loss_no_reorder (C : Nat) (hC : SizeOK C) (env : Nat → Session → Nat)
    (port : Nat) (msgs : List (List Nat)) (w0 : World)
    (hwf : RingWF C w0.ring) (h0 : pending w0.ring ≤ C) (n : Nat) :
    (∃ rest, (srun C env n (Session.start port msgs w0)).cur.w.seen ++ rest =
        w0.seen ++ content C w0.ring ++ cstrs msgs) ∧
    ((srun C env n (Session.start port msgs w0)).todo = [] ∧
      (srun C env n (Session.start port msgs w0)).cur.pc = .done ∧
      (srun C env n (Session.start port msgs w0)).cur.w.ring.out_cons =
        (srun C env n (Session.start port msgs w0)).cur.w.ring.out_prod →
      (srun C env n (Session.start port msgs w0)).cur.w.seen =
        w0.seen ++ content C w0.ring ++ cstrs msgs) := by
  have hi := start_inv port msgs w0 hwf h0
  have hs := srun_stream hC env _ hi n
  have hn := srun_inv hC env _ hi n
  have e0 : stream C (Session.start port msgs w0).cur ++ cstrs (Session.start port msgs w0).todo
      = w0.seen ++ content C w0.ring ++ cstrs msgs := by
    simp [stream, Session.start, cstr]
  rw [e0] at hs
  constructor
  · refine ⟨content C (srun C env n (Session.start port msgs w0)).cur.w.ring ++
      cstr (srun C env n (Session.start port msgs w0)).cur.message ++
      cstrs (srun C env n (Session.start port msgs w0)).todo, ?_⟩
    rw [← hs]
    simp [stream]
  · rintro ⟨htodo, hdone, hcp⟩
    have hz : deref (srun C env n (Session.start port msgs w0)).cur.message = 0 := by
      have := hn.2.2
      rw [hdone] at this
      exact this
    rw [← hs]
    simp [stream, htodo, cstrs, deref_zero_cstr _ hz, content_drained C _ hcp]

/-- C1, witness: the amended statement at the ring holding `'x'`, the single
message `"a"` and a consumer taking one step per round. -/
theorem no_loss_no_reorder_witness :
    SizeOK 8 ∧ RingWF 8 world8x.ring ∧ pending world8x.ring ≤ 8 ∧
    ((∃ rest, (srun 8 (fun _ _ => 1) 9 (Session.start 7 [[97]] world8x)).cur.w.seen ++ rest =
        world8x.seen ++ content 8 world8x.ring ++ cstrs [[97]]) ∧
    ((srun 8 (fun _ _ => 1) 9 (Session.start 7 [[97]] world8x)).todo = [] ∧
      (srun 8 (fun _ _ => 1) 9 (Session.start 7 [[97]] world8x)).cur.pc = .done ∧
      (srun 8 (fun _ _ => 1) 9 (Session.start 7 [[97]] world8x)).cur.w.ring.out_cons =
        (srun 8 (fun _ _ => 1) 9 (Session.start 7 [[97]] world8x)).cur.w.ring.out_prod →
      (srun 8 (fun _ _ => 1) 9 (Session.start 7 [[97]] world8x)).cur.w.seen =
        world8x.seen ++ content 8 world8x.ring ++ cstrs [[97]])) :=
  ⟨⟨3, by decide, by decide⟩, ⟨rfl, by decide, by decide⟩, by decide,
    no_loss_no_reorder 8 ⟨3, by decide, by decide⟩ (fun _ _ => 1) 7 [[97]] world8x
      ⟨rfl, by decide, by decide⟩ (by decide) 9⟩

/-- C1, counterexample to the claim as stated: the ring satisfies the
capacity invariant and holds the unconsumed byte `'x'`; after the call
`console_write("a")` has returned and the consumer has caught up, the bytes
read by the consumer are `"xa"`, which is not an initial segment of the
concatenation `"a"` of the messages. -/
theorem no_loss_no_reorder_counterexample :
    RingWF 8 world8x.ring ∧ pending world8x.ring ≤ 8 ∧
    (srun 8 (fun _ _ => 1) 9 (Session.start 7 [[97]] world8x)).cur.pc = .done ∧
    (srun 8 (fun _ _ => 1) 9 (Session.start 7 [[97]] world8x)).cur.w.ring.out_cons =
      (srun 8 (fun _ _ => 1) 9 (Session.start 7 [[97]] world8x)).cur.w.ring.out_prod ∧
    (srun 8 (fun _ _ => 1) 9 (Session.start 7 [[97]] world8x)).cur.w.seen = [120, 97] ∧
    ¬ ∃ rest, (srun 8 (fun _ _ => 1) 9 (Session.start 7 [[97]] world8x)).cur.w.seen ++ rest =
      cstrs [[97]] := by
  have hs : (srun 8 (fun _ _ => 1) 9 (Session.start 7 [[97]] world8x)).cur.w.seen = [120, 97] := by
    decide
  refine ⟨⟨rfl, by decide, by decide⟩, by decide, by decide, by decide, hs, ?_⟩
  rintro ⟨rest, h⟩
  rw [hs] at h
  simp [cstrs, cstr] at h

/-- C2.  If the capacity invariant holds initially, it holds after every
round of every run of a sequence of `console_write` calls against any
consumer; the consumer of the model only advances `out_cons`, one byte at a
time and never beyond `out_prod`.  In `uint32_t` arithmetic the invariant
reads `pending ≤ C`, and `pending` is the number of bytes produced minus the
number consumed: the bytes read by the consumer, the bytes pending and the
bytes still to be pushed always add up to the same total, so the consumer
has never read more than was produced.  Whenever `console_write` is about to
store a byte or to increment `out_prod`, `pending < C`. -/
theorem capacity_invariant (C : Nat) (hC : SizeOK C) (env : Nat → Session → Nat)
    (port : Nat) (msgs : List (List Nat)) (w0 : World)
    (hwf : RingWF C w0.ring) (h0 : pending w0.ring ≤ C) (n : Nat) :
    pending (srun C env n (Session.start port msgs w0)).cur.w.ring ≤ C ∧
    ((srun C env n (Session.start port msgs w0)).cur.w.seen.length +
        pending (srun C env n (Session.start port msgs w0)).cur.w.ring +
        strlen (srun C env n (Session.start port msgs w0)).cur.message +
        (cstrs (srun C env n (Session.start port msgs w0)).todo).length =
      w0.seen.length + pending w0.ring + (cstrs msgs).length) ∧
    ((srun C env n (Session.start port msgs w0)).cur.pc = .store ∨
      (srun C env n (Session.start port msgs w0)).cur.pc = .incr →
      pending (srun C env n (Session.start port msgs w0)).cur.w.ring < C) := by
  have hi := start_inv port msgs w0 hwf h0
  have hn := srun_inv hC env _ hi n
  have hs := congrArg List.length (srun_stream hC env _ hi n)
  refine ⟨hn.2.1, ?_, ?_⟩
  · simp only [stream, List.length_append, content_length, Session.start, cstr,
      List.length_nil, Nat.add_zero] at hs
    exact hs
  · rintro (h | h)
    · have := hn.2.2
      rw [h] at this
      exact this.2
    · have := hn.2.2
      rw [h] at this
      exact this.2.1

/-- C2, witness: the capacity invariant along a run of two calls on the empty
ring of capacity 8 against a consumer that never takes a step. -/
theorem capacity_invariant_witness :
    SizeOK 8 ∧ RingWF 8 world8.ring ∧ pending world8.ring ≤ 8 ∧
    (pending (srun 8 (fun _ _ => 0) 40
        (Session.start 7 [HELLOWORLD, HELLOWORLD] world8)).cur.w.ring ≤ 8 ∧
    ((srun 8 (fun _ _ => 0) 40 (Session.start 7 [HELLOWORLD, HELLOWORLD] world8)).cur.w.seen.length +
        pending (srun 8 (fun _ _ => 0) 40
          (Session.start 7 [HELLOWORLD, HELLOWORLD] world8)).cur.w.ring +
        strlen (srun 8 (fun _ _ => 0) 40
          (Session.start 7 [HELLOWORLD, HELLOWORLD] world8)).cur.message +
        (cstrs (srun 8 (fun _ _ => 0) 40
          (Session.start 7 [HELLOWORLD, HELLOWORLD] world8)).todo).length =
      world8.seen.length + pending world8.ring + (cstrs [HELLOWORLD, HELLOWORLD]).length) ∧
    ((srun 8 (fun _ _ => 0) 40 (Session.start 7 [HELLOWORLD, HELLOWORLD] world8)).cur.pc = .store ∨
      (srun 8 (fun _ _ => 0) 40 (Session.start 7 [HELLOWORLD, HELLOWORLD] world8)).cur.pc = .incr →
      pending (srun 8 (fun _ _ => 0) 40
        (Session.start 7 [HELLOWORLD, HELLOWORLD] world8)).cur.w.ring < 8)) :=
  ⟨⟨3, by decide, by decide⟩, ⟨rfl, by decide, by decide⟩, by decide,
    capacity_invariant 8 ⟨3, by decide, by decide⟩ (fun _ _ => 0) 7 [HELLOWORLD, HELLOWORLD]
      world8 ⟨rfl, by decide, by decide⟩ (by decide) 40⟩

/-- C3, as amended.  Whenever `console_write(m)` returns, against any
consumer: for a message of fewer than `2 ^ 31` bytes the returned count is
the length of `m`; for every message the returned count is that length
converted to `int` and `out_prod` has been advanced by exactly that length
(in `uint32_t` arithmetic). -/
theorem write_complete (C : Nat) (env : Nat → WriteCfg → Nat) (port : Nat) (m : List Nat)
    (w0 : World) (hprod : w0.ring.out_prod < IDX_MOD) (n : Nat)
    (hdone : (wrun C env n (console_write_entry port m w0)).pc = .done) :
    (strlen m < 2147483648 →
      (wrun C env n (console_write_entry port m w0)).length = (strlen m : Int)) ∧
    (wrun C env n (console_write_entry port m w0)).length = toInt32 (strlen m : Int) ∧
    (wrun C env n (console_write_entry port m w0)).w.ring.out_prod =
      (w0.ring.out_prod + strlen m) % IDX_MOD := by
  obtain ⟨_, _, h3, h4, _, h6⟩ := wrun_cnt C env port m w0 hprod n
  rw [hdone] at h6
  have hz := strlen_zero _ h6
  rw [hz, Nat.sub_zero] at h3 h4
  exact ⟨fun hlen => by rw [h3]; exact toInt32_small _ hlen, h3, h4⟩

/-- C3, witness: `console_write("HELLOWORLD")` on the empty ring of capacity
8 against a consumer taking one step per round has returned 10 after 62
rounds. -/
theorem write_complete_witness :
    world8.ring.out_prod < IDX_MOD ∧ strlen HELLOWORLD < 2147483648 ∧
    (wrun 8 (fun _ _ => 1) 62 (console_write_entry 7 HELLOWORLD world8)).pc = .done ∧
    (wrun 8 (fun _ _ => 1) 62 (console_write_entry 7 HELLOWORLD world8)).length =
      (strlen HELLOWORLD : Int) ∧
    (wrun 8 (fun _ _ => 1) 62 (console_write_entry 7 HELLOWORLD world8)).length = 10 ∧
    (wrun 8 (fun _ _ => 1) 62 (console_write_entry 7 HELLOWORLD world8)).w.ring.out_prod =
      (world8.ring.out_prod + strlen HELLOWORLD) % IDX_MOD :=
  ⟨by decide, by decide, by decide,
    (write_complete 8 (fun _ _ => 1) 7 HELLOWORLD world8 (by decide) 62 (by decide)).1
      (by decide),
    by decide,
    (write_complete 8 (fun _ _ => 1) 7 HELLOWORLD world8 (by decide) 62 (by decide)).2.2⟩

/-- C3, counterexample to the claim as stated: for the message of `2 ^ 31`
bytes `'A'`, on the empty ring of capacity 8 against the stub that consumes
a byte at every notification, `console_write` returns, and the count it
returns is `-2147483648`, not the length `2147483648` of the message. -/
theorem write_complete_counterexample :
    strlen (List.replicate 2147483648 65) = 2147483648 ∧
    ∃ n,
      (wrun 8 (notifyStub (fun _ _ => 1)) n
        (console_write_entry 7 (List.replicate 2147483648 65) world8)).pc = .done ∧
      (wrun 8 (notifyStub (fun _ _ => 1)) n
        (console_write_entry 7 (List.replicate 2147483648 65) world8)).length = -2147483648 ∧
      (wrun 8 (notifyStub (fun _ _ => 1)) n
        (console_write_entry 7 (List.replicate 2147483648 65) world8)).length ≠
        (strlen (List.replicate 2147483648 65) : Int) := by
  have hs := strlen_replicate 2147483648 65 (by decide)
  obtain ⟨n, h1, h2⟩ := long_message_count (List.replicate 2147483648 65) hs
  refine ⟨hs, n, h1, h2, ?_⟩
  rw [h2, hs]
  decide

/-- C4.  Against a consumer that never advances `out_cons`, a call of
`console_write` on a message longer than the free space `C - pending` never
returns; from round `6 * (C - pending) + 1` on it is inside the poll loop
(lines 44 to 47) with the ring full, `out_prod` advanced by exactly
`C - pending` and the rest of the message still to be pushed. -/
theorem backpressure (C : Nat) (hC : SizeOK C) (port : Nat) (m : List Nat) (w0 : World)
    (hwf : RingWF C w0.ring) (h0 : pending w0.ring ≤ C)
    (hlong : C - pending w0.ring < strlen m) :
    (∀ n, (wrun C (fun _ _ => 0) n (console_write_entry port m w0)).pc ≠ .done) ∧
    (∀ n, 6 * (C - pending w0.ring) + 1 ≤ n →
      ((wrun C (fun _ _ => 0) n (console_write_entry port m w0)).pc = .poll ∨
        (wrun C (fun _ _ => 0) n (console_write_entry port m w0)).pc = .send ∨
        (wrun C (fun _ _ => 0) n (console_write_entry port m w0)).pc = .check) ∧
      pending (wrun C (fun _ _ => 0) n (console_write_entry port m w0)).w.ring = C ∧
      (wrun C (fun _ _ => 0) n (console_write_entry port m w0)).w.ring.out_cons =
        w0.ring.out_cons ∧
      (wrun C (fun _ _ => 0) n (console_write_entry port m w0)).w.ring.out_prod =
        (w0.ring.out_prod + (C - pending w0.ring)) % IDX_MOD ∧
      strlen (wrun C (fun _ _ => 0) n (console_write_entry port m w0)).message +
        (C - pending w0.ring) = strlen m) := by
  have hfull : ∀ n, 6 * (C - pending w0.ring) + 1 ≤ n →
      ((wrun C (fun _ _ => 0) n (console_write_entry port m w0)).pc = .poll ∨
        (wrun C (fun _ _ => 0) n (console_write_entry port m w0)).pc = .send ∨
        (wrun C (fun _ _ => 0) n (console_write_entry port m w0)).pc = .check) ∧
      pending (wrun C (fun _ _ => 0) n (console_write_entry port m w0)).w.ring = C ∧
      (wrun C (fun _ _ => 0) n (console_write_entry port m w0)).w.ring.out_cons =
        w0.ring.out_cons ∧
      (wrun C (fun _ _ => 0) n (console_write_entry port m w0)).w.ring.out_prod =
        (w0.ring.out_prod + (C - pending w0.ring)) % IDX_MOD ∧
      strlen (wrun C (fun _ _ => 0) n (console_write_entry port m w0)).message +
        (C - pending w0.ring) = strlen m := by
    intro n hn
    obtain ⟨hpc, hp, hs⟩ := full_phase hC port m w0 hwf h0 hlong n hn
    obtain ⟨_, _, _, h4, _, _⟩ := wrun_cnt C (fun _ _ => 0) port m w0 hwf.2.1 n
    have hinv := wrun_inv hC (fun _ _ => 0) (console_write_entry port m w0)
      ⟨hwf, h0, trivial⟩ n
    obtain ⟨⟨_, hprod, hcons⟩, _, _⟩ := hinv
    have hCle := hC.le
    have hk : strlen m -
        strlen (wrun C (fun _ _ => 0) n (console_write_entry port m w0)).message =
        C - pending w0.ring := by omega
    rw [hk] at h4
    refine ⟨?_, hp, ?_, h4, hs⟩
    · rcases hpc with h | ⟨h, _⟩ | ⟨h, _⟩
      · exact Or.inl h
      · exact Or.inr (Or.inl h)
      · exact Or.inr (Or.inr h)
    · have hw0 := hwf.2.2
      have hw1 := hwf.2.1
      simp only [pending, IDX_MOD] at *
      omega
  refine ⟨?_, hfull⟩
  intro n
  by_cases hn : n ≤ 6 * (C - pending w0.ring)
  · obtain ⟨hpc, _⟩ := fill_phase hC port m w0 hwf h0 hlong n hn
    rw [hpc]
    have hr : n % 6 = 0 ∨ n % 6 = 1 ∨ n % 6 = 2 ∨ n % 6 = 3 ∨ n % 6 = 4 ∨ n % 6 = 5 := by omega
    rcases hr with hr | hr | hr | hr | hr | hr <;> rw [hr] <;> decide
  · obtain ⟨hpc, _⟩ := hfull n (by omega)
    rcases hpc with h | h | h <;> rw [h] <;> decide

/-- C4, witness: `console_write("HELLOWORLD")` on the empty ring of capacity
8 against a consumer that never advances `out_cons`. -/
theorem backpressure_witness :
    SizeOK 8 ∧ RingWF 8 world8.ring ∧ pending world8.ring ≤ 8 ∧
    8 - pending world8.ring < strlen HELLOWORLD ∧
    (∀ n, (wrun 8 (fun _ _ => 0) n (console_write_entry 7 HELLOWORLD world8)).pc ≠ .done) ∧
    (∀ n, 6 * (8 - pending world8.ring) + 1 ≤ n →
      ((wrun 8 (fun _ _ => 0) n (console_write_entry 7 HELLOWORLD world8)).pc = .poll ∨
        (wrun 8 (fun _ _ => 0) n (console_write_entry 7 HELLOWORLD world8)).pc = .send ∨
        (wrun 8 (fun _ _ => 0) n (console_write_entry 7 HELLOWORLD world8)).pc = .check) ∧
      pending (wrun 8 (fun _ _ => 0) n (console_write_entry 7 HELLOWORLD world8)).w.ring = 8 ∧
      (wrun 8 (fun _ _ => 0) n (console_write_entry 7 HELLOWORLD world8)).w.ring.out_cons =
        world8.ring.out_cons ∧
      (wrun 8 (fun _ _ => 0) n (console_write_entry 7 HELLOWORLD world8)).w.ring.out_prod =
        (world8.ring.out_prod + (8 - pending world8.ring)) % IDX_MOD ∧
      strlen (wrun 8 (fun _ _ => 0) n (console_write_entry 7 HELLOWORLD world8)).message +
        (8 - pending world8.ring) = strlen HELLOWORLD) :=
  ⟨⟨3, by decide, by decide⟩, ⟨rfl, by decide, by decide⟩, by decide, by decide,
    backpressure 8 ⟨3, by decide, by decide⟩ 7 HELLOWORLD world8
      ⟨rfl, by decide, by decide⟩ (by decide) (by decide)⟩

/-- C5, as amended.  Capacity 8, empty ring, `console_write("HELLOWORLD")`
against the stub that at every notification advances `out_cons` by 4, or by
the number of unconsumed bytes when fewer than 4 are unconsumed (never past
`out_prod`): after 62 rounds the call has returned 10, `out_prod = 10`, the
consumer has caught up and the bytes it has read are exactly
`"HELLOWORLD"`.  The code notifies on every poll iteration, so the call
meets no full-ring poll iteration. -/
theorem example_scenario :
    (wrun 8 (notifyStub (fun _ _ => 4)) 62 (console_write_entry 7 HELLOWORLD world8)).pc = .done ∧
    (wrun 8 (notifyStub (fun _ _ => 4)) 62 (console_write_entry 7 HELLOWORLD world8)).length = 10 ∧
    (wrun 8 (notifyStub (fun _ _ => 4)) 62
      (console_write_entry 7 HELLOWORLD world8)).w.ring.out_prod = 10 ∧
    (wrun 8 (notifyStub (fun _ _ => 4)) 62
      (console_write_entry 7 HELLOWORLD world8)).w.ring.out_cons = 10 ∧
    (wrun 8 (notifyStub (fun _ _ => 4)) 62 (console_write_entry 7 HELLOWORLD world8)).w.seen =
      HELLOWORLD ∧
    fullPolls 8 (notifyStub (fun _ _ => 4)) (console_write_entry 7 HELLOWORLD world8) 62 = 0 := by
  decide

/-- C5, counterexample to the claim as stated: against the stub that
advances `out_cons` by 4 at every notification, the first notification comes
before any byte is stored, so after three rounds the stub has read four
bytes that were never written and `out_cons = 4` is ahead of `out_prod = 0`,
breaking the capacity invariant; whatever follows, the bytes read by the
consumer are never `"HELLOWORLD"`, and after 90 rounds the call is still
polling for room for its second byte. -/
theorem example_scenario_counterexample :
    (wrunRaw 8 4 3 (console_write_entry 7 HELLOWORLD world8)).w.seen = [0, 0, 0, 0] ∧
    (wrunRaw 8 4 3 (console_write_entry 7 HELLOWORLD world8)).w.ring.out_cons = 4 ∧
    (wrunRaw 8 4 3 (console_write_entry 7 HELLOWORLD world8)).w.ring.out_prod = 0 ∧
    8 < pending (wrunRaw 8 4 3 (console_write_entry 7 HELLOWORLD world8)).w.ring ∧
    (∀ n, (wrunRaw 8 4 (3 + n) (console_write_entry 7 HELLOWORLD world8)).w.seen ≠
      HELLOWORLD) ∧
    (wrunRaw 8 4 90 (console_write_entry 7 HELLOWORLD world8)).pc = .check ∧
    (wrunRaw 8 4 90 (console_write_entry 7 HELLOWORLD world8)).w.ring.out_prod = 1 := by
  have hs : (wrunRaw 8 4 3 (console_write_entry 7 HELLOWORLD world8)).w.seen = [0, 0, 0, 0] := by
    decide
  refine ⟨hs, by decide, by decide, by decide, ?_, by decide, by decide⟩
  intro n h
  obtain ⟨rest, hr⟩ := wrunRaw_seen 8 4 (console_write_entry 7 HELLOWORLD world8) 3 n
  rw [hr, hs] at h
  simp [HELLOWORLD] at h

/-- C6.  For every message and every well-formed initial state satisfying
the capacity invariant: if the consumer stub, whenever the ring is full,
consumes at least one byte at one of the next `B` notifications, then
`console_write` returns after finitely many rounds. -/
theorem write_terminates (C : Nat) (hC : SizeOK C) (stub : Nat → xencons_interface → Nat)
    (B : Nat) (hfair : ∀ i r, pending r = C → ∃ j, j < B ∧ 1 ≤ stub (i + j) r)
    (port : Nat) (m : List Nat) (w0 : World)
    (hwf : RingWF C w0.ring) (h0 : pending w0.ring ≤ C) :
    ∃ n, (wrun C (notifyStub stub) n (console_write_entry port m w0)).pc = .done :=
  write_terminates_aux hC stub
    (fun i r h => by
      obtain ⟨j, _, hj⟩ := hfair i r h
      exact ⟨j, hj⟩)
    (strlen m) (console_write_entry port m w0) rfl ⟨hwf, h0, trivial⟩ rfl

/-- C6, witness: on the empty ring of capacity 8 the stub that consumes one
byte at every third notification lets `console_write("HELLOWORLD")`
return. -/
theorem write_terminates_witness :
    SizeOK 8 ∧ RingWF 8 world8.ring ∧ pending world8.ring ≤ 8 ∧
    (∀ i r, pending r = 8 →
      ∃ j, j < 3 ∧ 1 ≤ (fun (i : Nat) (_ : xencons_interface) =>
        if i % 3 = 0 then 1 else 0) (i + j) r) ∧
    ∃ n, (wrun 8 (notifyStub (fun i _ => if i % 3 = 0 then 1 else 0)) n
      (console_write_entry 7 HELLOWORLD world8)).pc = .done :=
  have hfair : ∀ i r, pending r = 8 →
      ∃ j, j < 3 ∧ 1 ≤ (fun (i : Nat) (_ : xencons_interface) =>
        if i % 3 = 0 then 1 else 0) (i + j) r := by
    intro i r _
    refine ⟨(3 - i % 3) % 3, by omega, ?_⟩
    have e : (i + (3 - i % 3) % 3) % 3 = 0 := by omega
    simp [e]
  ⟨⟨3, by decide, by decide⟩, ⟨rfl, by decide, by decide⟩, by decide, hfair,
    write_terminates 8 ⟨3, by decide, by decide⟩ (fun i _ => if i % 3 = 0 then 1 else 0) 3
      hfair 7 HELLOWORLD world8 ⟨rfl, by decide, by decide⟩ (by decide)⟩

/-- C7.  Given a consumer stub that has set `out_cons = out_prod` after `k`
yields, with no further writes, `console_flush` returns having invoked the
yield primitive at most `k` times; given a consumer that never advances
`out_cons` while `out_cons < out_prod`, `console_flush` entered with
`out_cons < out_prod` has not returned after any number of rounds. -/
theorem flush_termination (C : Nat) :
    (∀ (stub : Nat → xencons_interface → Nat) (k : Nat) (w : World),
      (afterYields C stub k w).ring.out_cons = (afterYields C stub k w).ring.out_prod →
      ∃ n, (frun C (yieldStub stub) n (console_flush_entry w)).pc = .done ∧
        (frun C (yieldStub stub) n (console_flush_entry w)).w.yields ≤ w.yields + k) ∧
    (∀ (env : Nat → FlushCfg → Nat) (w : World),
      w.ring.out_cons < w.ring.out_prod →
      (∀ i c, c.w.ring.out_cons < c.w.ring.out_prod → env i c = 0) →
      ∀ n, (frun C env n (console_flush_entry w)).pc ≠ .done) :=
  ⟨fun stub k w h => flush_returns C stub k w h,
    fun env w hlt henv n => (flush_blocked C env w hlt henv n).1⟩

/-- C7, witness: on the ring of capacity 8 holding `"abc"`, the stub that
consumes everything at the third yield lets `console_flush` return after at
most 3 yields, and the consumer that never takes a step does not. -/
theorem flush_termination_witness :
    ((afterYields 8 (fun i _ => if i = 2 then 8 else 0) 3 world8abc).ring.out_cons =
      (afterYields 8 (fun i _ => if i = 2 then 8 else 0) 3 world8abc).ring.out_prod ∧
    ∃ n, (frun 8 (yieldStub (fun i _ => if i = 2 then 8 else 0)) n
        (console_flush_entry world8abc)).pc = .done ∧
      (frun 8 (yieldStub (fun i _ => if i = 2 then 8 else 0)) n
        (console_flush_entry world8abc)).w.yields ≤ world8abc.yields + 3) ∧
    (world8abc.ring.out_cons < world8abc.ring.out_prod ∧
      ∀ n, (frun 8 (fun _ _ => 0) n (console_flush_entry world8abc)).pc ≠ .done) :=
  ⟨⟨by decide,
      (flush_termination 8).1 (fun i _ => if i = 2 then 8 else 0) 3 world8abc (by decide)⟩,
    ⟨by decide,
      (flush_termination 8).2 (fun _ _ => 0) world8abc (by decide) (fun _ _ _ => rfl)⟩⟩

/-- C8.  `console_flush` called with `out_prod = out_cons` has returned after
its first step, against any consumer: it has invoked the yield primitive zero
times and the world, ring included, is unchanged, then and ever after. -/
theorem flush_on_drained (C : Nat) (env : Nat → FlushCfg → Nat) (w : World)
    (h : w.ring.out_cons = w.ring.out_prod) (n : Nat) :
    frun C env (n + 1) (console_flush_entry w) = { pc := .done, w := w } := by
  induction n with
  | zero =>
    have hn : ¬ w.ring.out_cons < w.ring.out_prod := by omega
    simp [frun, fround, fstep, console_flush_entry, hn, drains_idle C _ w h]
  | succ n ih =>
    have e : frun C env (n + 1 + 1) (console_flush_entry w) =
        fround C (env (n + 1) (frun C env (n + 1) (console_flush_entry w)))
          (frun C env (n + 1) (console_flush_entry w)) := rfl
    rw [e, ih]
    simp [fround, fstep, drains_idle C _ w h]

/-- C8, witness: `console_flush` with `out_prod = out_cons = 5`. -/
theorem flush_on_drained_witness :
    world8at5.ring.out_cons = world8at5.ring.out_prod ∧
    frun 8 (fun _ _ => 4) (0 + 1) (console_flush_entry world8at5) =
      { pc := .done, w := world8at5 } ∧
    (frun 8 (fun _ _ => 4) (0 + 1) (console_flush_entry world8at5)).w.yields = 0 :=
  ⟨by decide, flush_on_drained 8 (fun _ _ => 4) world8at5 (by decide) 0,
    by rw [flush_on_drained 8 (fun _ _ => 4) world8at5 (by decide) 0]; rfl⟩

/-- C9.  Along any run of `console_flush` against any consumer: the number of
yields made (counting the one about to be made at the yield point) is the
number of checks that found `out_cons < out_prod`; a check that finds
`out_cons < out_prod` goes on to yield and a check that finds
`out_cons >= out_prod` returns; the function returns at no other point; and
when the counters satisfy the capacity invariant at entry
(`out_cons ≤ out_prod`, as values of `uint32_t`), `out_cons = out_prod` in
every state in which the function has returned. -/
theorem flush_exit (C : Nat) (env : Nat → FlushCfg → Nat) (w0 : World) (n : Nat) :
    ((frun C env n (console_flush_entry w0)).w.yields +
        (if (frun C env n (console_flush_entry w0)).pc = .sched then 1 else 0) =
      w0.yields + blockedChecks C env (console_flush_entry w0) n) ∧
    ((frun C env n (console_flush_entry w0)).pc = .check →
      (frun C env n (console_flush_entry w0)).w.ring.out_cons <
        (frun C env n (console_flush_entry w0)).w.ring.out_prod →
      (frun C env (n + 1) (console_flush_entry w0)).pc = .sched) ∧
    ((frun C env n (console_flush_entry w0)).pc = .check →
      ¬ (frun C env n (console_flush_entry w0)).w.ring.out_cons <
        (frun C env n (console_flush_entry w0)).w.ring.out_prod →
      (frun C env (n + 1) (console_flush_entry w0)).pc = .done) ∧
    ((frun C env n (console_flush_entry w0)).pc ≠ .done →
      (frun C env (n + 1) (console_flush_entry w0)).pc = .done →
      (frun C env n (console_flush_entry w0)).pc = .check ∧
      ¬ (frun C env n (console_flush_entry w0)).w.ring.out_cons <
        (frun C env n (console_flush_entry w0)).w.ring.out_prod) ∧
    (w0.ring.out_cons ≤ w0.ring.out_prod → w0.ring.out_prod < IDX_MOD →
      (frun C env n (console_flush_entry w0)).pc = .done →
      (frun C env n (console_flush_entry w0)).w.ring.out_cons =
        (frun C env n (console_flush_entry w0)).w.ring.out_prod) := by
  refine ⟨?_, ?_, ?_, ?_, ?_⟩
  · have := flush_yield_count C env (console_flush_entry w0) n
    simpa [console_flush_entry] using this
  · intro hc hlt
    simp only [frun, fround_pc]
    simp [fstep, hc, hlt]
  · intro hc hlt
    simp only [frun, fround_pc]
    simp [fstep, hc, hlt]
  · intro hnd hd
    simp only [frun, fround_pc] at hd
    generalize frun C env n (console_flush_entry w0) = c at *
    cases hc : c.pc with
    | check =>
      refine ⟨rfl, ?_⟩
      intro hlt
      simp [fstep, hc, hlt] at hd
    | sched => simp [fstep, hc] at hd
    | done => exact absurd hc hnd
  · intro hle hprod
    exact (flush_caught_up C env w0 hle hprod n).2.2

/-- C9, witness: `console_flush` on the ring of capacity 8 holding `"abc"`
against a consumer taking one step per round has returned after 5 rounds,
after two yields, with `out_cons = out_prod`. -/
theorem flush_exit_witness :
    world8abc.ring.out_cons ≤ world8abc.ring.out_prod ∧
    world8abc.ring.out_prod < IDX_MOD ∧
    (frun 8 (fun _ _ => 1) 5 (console_flush_entry world8abc)).pc = .done ∧
    (frun 8 (fun _ _ => 1) 5 (console_flush_entry world8abc)).w.yields = 2 ∧
    blockedChecks 8 (fun _ _ => 1) (console_flush_entry world8abc) 5 = 2 ∧
    (frun 8 (fun _ _ => 1) 5 (console_flush_entry world8abc)).w.ring.out_cons =
      (frun 8 (fun _ _ => 1) 5 (console_flush_entry world8abc)).w.ring.out_prod :=
  ⟨by decide, by decide, by decide, by decide, by decide,
    (flush_exit 8 (fun _ _ => 1) world8abc 5).2.2.2.2 (by decide) (by decide) (by decide)⟩

/-- C10, as amended.  Every poll iteration of `console_write` sends one
notification, whether or not it finds the ring full, every byte takes at
least one poll iteration, and one final notification follows the message: a
call that has returned after writing `strlen m` bytes and meeting `k`
full-ring poll iterations has sent exactly `strlen m + k + 1` notifications,
all on the port read at entry. -/
theorem notification_count (C : Nat) (env : Nat → WriteCfg → Nat) (port : Nat) (m : List Nat)
    (w0 : World) (hprod : w0.ring.out_prod < IDX_MOD) (n : Nat)
    (hdone : (wrun C env n (console_write_entry port m w0)).pc = .done) :
    (wrun C env n (console_write_entry port m w0)).w.sent =
      w0.sent ++ List.replicate
        (strlen m + fullPolls C env (console_write_entry port m w0) n + 1) port := by
  obtain ⟨_, _, _, _, h5, h6⟩ := wrun_cnt C env port m w0 hprod n
  rw [hdone] at h6 h5
  have hz := strlen_zero _ h6
  rw [hz, Nat.sub_zero] at h5
  exact h5

/-- C10, witness: `console_write("HELLOWORLD")` on the empty ring of capacity
8 against the stub that consumes up to 4 bytes at every sixteenth
notification; the call meets 8 full-ring poll iterations. -/
theorem notification_count_witness :
    world8.ring.out_prod < IDX_MOD ∧
    (wrun 8 (notifyStub (fun i _ => if i % 16 = 15 then 4 else 0)) 86
      (console_write_entry 7 HELLOWORLD world8)).pc = .done ∧
    (wrun 8 (notifyStub (fun i _ => if i % 16 = 15 then 4 else 0)) 86
      (console_write_entry 7 HELLOWORLD world8)).w.sent =
      world8.sent ++ List.replicate
        (strlen HELLOWORLD + fullPolls 8 (notifyStub (fun i _ => if i % 16 = 15 then 4 else 0))
          (console_write_entry 7 HELLOWORLD world8) 86 + 1) 7 :=
  ⟨by decide, by decide,
    notification_count 8 (notifyStub (fun i _ => if i % 16 = 15 then 4 else 0)) 7 HELLOWORLD
      world8 (by decide) 86 (by decide)⟩

/-- C10, counterexample to the claim as stated: `console_write("A")` on the
empty ring of capacity 8 never finds the ring full, yet it has sent a
notification inside the loop after three rounds, with `data = 0`, and two
notifications when it returns. -/
theorem notification_count_counterexample :
    (wrun 8 (fun _ _ => 0) 3 (console_write_entry 7 [65] world8)).pc = .check ∧
    (wrun 8 (fun _ _ => 0) 3 (console_write_entry 7 [65] world8)).data = 0 ∧
    (wrun 8 (fun _ _ => 0) 3 (console_write_entry 7 [65] world8)).w.sent = [7] ∧
    (wrun 8 (fun _ _ => 0) 8 (console_write_entry 7 [65] world8)).pc = .done ∧
    fullPolls 8 (fun _ _ => 0) (console_write_entry 7 [65] world8) 8 = 0 ∧
    (wrun 8 (fun _ _ => 0) 8 (console_write_entry 7 [65] world8)).w.sent = [7, 7] := by
  decide

/-- C11.  Along any run of `console_write` against any consumer the input
ring and its counters keep their values, `out_cons` has advanced exactly by
the number of bytes the consumer has read (no step of `console_write`
changes it), `out` keeps its size, and every cell of `out` whose offset is
not `p mod C` for a position `p` from `out_prod` at entry up to, and not
including, `out_prod` at entry plus the length of the message keeps its
byte.  Along any run of `console_flush` the input ring, `out` and `out_prod`
keep their values and `out_cons` has advanced exactly by the number of bytes
the consumer has read; no step of `console_flush` changes the ring. -/
theorem frame_of_counters (C : Nat) (hC : SizeOK C) :
    (∀ (env : Nat → WriteCfg → Nat) (port : Nat) (m : List Nat) (w0 : World) (n : Nat),
      w0.ring.out_prod < IDX_MOD → w0.ring.out_cons < IDX_MOD →
      (wrun C env n (console_write_entry port m w0)).w.ring.in_ring = w0.ring.in_ring ∧
      (wrun C env n (console_write_entry port m w0)).w.ring.in_cons = w0.ring.in_cons ∧
      (wrun C env n (console_write_entry port m w0)).w.ring.in_prod = w0.ring.in_prod ∧
      (∃ k, (wrun C env n (console_write_entry port m w0)).w.seen.length =
          w0.seen.length + k ∧
        (wrun C env n (console_write_entry port m w0)).w.ring.out_cons =
          (w0.ring.out_cons + k) % IDX_MOD) ∧
      (wrun C env n (console_write_entry port m w0)).w.ring.out.length = w0.ring.out.length ∧
      ∀ i, (∀ j, j < strlen m → (w0.ring.out_prod + j) % C ≠ i) →
        (wrun C env n (console_write_entry port m w0)).w.ring.out.getD i 0 =
          w0.ring.out.getD i 0) ∧
    (∀ c : WriteCfg,
      (wstep C c).w.ring.out_cons = c.w.ring.out_cons ∧
      (wstep C c).w.ring.in_ring = c.w.ring.in_ring ∧
      (wstep C c).w.ring.in_cons = c.w.ring.in_cons ∧
      (wstep C c).w.ring.in_prod = c.w.ring.in_prod) ∧
    (∀ (env : Nat → FlushCfg → Nat) (w0 : World) (n : Nat),
      w0.ring.out_cons < IDX_MOD →
      (frun C env n (console_flush_entry w0)).w.ring.in_ring = w0.ring.in_ring ∧
      (frun C env n (console_flush_entry w0)).w.ring.in_cons = w0.ring.in_cons ∧
      (frun C env n (console_flush_entry w0)).w.ring.in_prod = w0.ring.in_prod ∧
      (frun C env n (console_flush_entry w0)).w.ring.out = w0.ring.out ∧
      (frun C env n (console_flush_entry w0)).w.ring.out_prod = w0.ring.out_prod ∧
      (∃ k, (frun C env n (console_flush_entry w0)).w.seen.length = w0.seen.length + k ∧
        (frun C env n (console_flush_entry w0)).w.ring.out_cons =
          (w0.ring.out_cons + k) % IDX_MOD)) ∧
    (∀ c : FlushCfg, (fstep c).w.ring = c.w.ring) := by
  refine ⟨?_, ?_, ?_, ?_⟩
  · intro env port m w0 n hprod hcons
    obtain ⟨_, h2, h3, h4, _⟩ := wrun_frame C env (console_write_entry port m w0) n
    exact ⟨h2, h3, h4, wrun_cons C env (console_write_entry port m w0) hcons n,
      wrun_out_length hC env (console_write_entry port m w0) n,
      fun i hi => wrun_out_cell hC env port m w0 hprod i hi n⟩
  · intro c
    obtain ⟨_, _, h3, h4, h5, h6, _⟩ := wstep_frame C c
    exact ⟨h3, h4, h5, h6⟩
  · intro env w0 n hcons
    obtain ⟨_, h2, h3, h4, h5, h6⟩ := frun_frame C env (console_flush_entry w0) n
    exact ⟨h4, h5, h6, h2, h3, frun_cons C env (console_flush_entry w0) hcons n⟩
  · intro c
    exact (fstep_world c).1

/-- C11, witness: `console_write("HELLOWORLD")` on the ring of capacity 8
holding `"abc"` against a consumer taking one step per round, after 62
rounds, and the cells a call of `console_write("ab")` leaves alone. -/
theorem frame_of_counters_witness :
    SizeOK 8 ∧
    ((wrun 8 (fun _ _ => 1) 62 (console_write_entry 7 HELLOWORLD world8abc)).w.ring.in_ring =
        world8abc.ring.in_ring ∧
      (wrun 8 (fun _ _ => 1) 62 (console_write_entry 7 HELLOWORLD world8abc)).w.ring.in_cons =
        world8abc.ring.in_cons ∧
      (wrun 8 (fun _ _ => 1) 62 (console_write_entry 7 HELLOWORLD world8abc)).w.ring.in_prod =
        world8abc.ring.in_prod ∧
      (∃ k, (wrun 8 (fun _ _ => 1) 62
            (console_write_entry 7 HELLOWORLD world8abc)).w.seen.length =
          world8abc.seen.length + k ∧
        (wrun 8 (fun _ _ => 1) 62
            (console_write_entry 7 HELLOWORLD world8abc)).w.ring.out_cons =
          (world8abc.ring.out_cons + k) % IDX_MOD) ∧
      (wrun 8 (fun _ _ => 1) 62 (console_write_entry 7 HELLOWORLD world8abc)).w.ring.out.length =
        world8abc.ring.out.length ∧
      ∀ i, (∀ j, j < strlen HELLOWORLD → (world8abc.ring.out_prod + j) % 8 ≠ i) →
        (wrun 8 (fun _ _ => 1) 62
            (console_write_entry 7 HELLOWORLD world8abc)).w.ring.out.getD i 0 =
          world8abc.ring.out.getD i 0) ∧
    (wrun 8 (fun _ _ => 0) 14 (console_write_entry 7 [97, 98] world8abc)).w.ring.out =
      [97, 98, 99, 97, 98, 0, 0, 0] :=
  ⟨⟨3, by decide, by decide⟩,
    (frame_of_counters 8 ⟨3, by decide, by decide⟩).1 (fun _ _ => 1) 7 HELLOWORLD world8abc 62
      (by decide) (by decide),
    by decide⟩

/-- C12.  For every `start_info`, translation table and address of `_text`,
`console_init` returns 0, sets `console` to
`machine_to_phys_mapping[mfn] * 4096 + &_text` in 64-bit unsigned arithmetic
and `console_evt` to `start->console.domU.evtchn`; it leaves the world as it
found it (no notification, no yield, no change of the ring) and what it
returns and sets does not depend on the world. -/
theorem console_init_pure (machine_to_phys_mapping : Nat → Nat) (text : Nat)
    (start : start_info) (w : World) :
    (console_init machine_to_phys_mapping text start w).1 = 0 ∧
    (console_init machine_to_phys_mapping text start w).2.1.console =
      (machine_to_phys_mapping start.mfn * 4096 + text) % 18446744073709551616 ∧
    (console_init machine_to_phys_mapping text start w).2.1.console_evt = start.evtchn ∧
    (console_init machine_to_phys_mapping text start w).2.2 = w ∧
    (∀ w1 : World,
      (console_init machine_to_phys_mapping text start w1).1 =
        (console_init machine_to_phys_mapping text start w).1 ∧
      (console_init machine_to_phys_mapping text start w1).2.1 =
        (console_init machine_to_phys_mapping text start w).2.1) := by
  refine ⟨rfl, ?_, rfl, rfl, fun _ => ⟨rfl, rfl⟩⟩
  show ((machine_to_phys_mapping start.mfn <<< 12) % 18446744073709551616 + text) %
    18446744073709551616 = _
  rw [Nat.shiftLeft_eq]
  omega

/-- C13.  In every state of a run of `console_write` against any consumer,
the bytes at the logical positions from `out_cons` up to `out_prod` are the
bytes of the stream (what was pending at entry, then the message) that
follow the ones already read: no position below `out_prod` is without its
byte.  At the store `pending < C`, the byte stored is the current message
byte, the offset is `out_prod & (C - 1) = out_prod mod C` and `out_prod` is
left alone; at the increment the byte is already in its cell, `out_prod`
advances by exactly one and `out` is left alone. -/
theorem push_step (C : Nat) (hC : SizeOK C) (env : Nat → WriteCfg → Nat) (port : Nat)
    (m : List Nat) (w0 : World) (hwf : RingWF C w0.ring) (h0 : pending w0.ring ≤ C) (n : Nat) :
    content C (wrun C env n (console_write_entry port m w0)).w.ring =
      ((w0.seen ++ content C w0.ring ++ cstr m).drop
        (wrun C env n (console_write_entry port m w0)).w.seen.length).take
        (pending (wrun C env n (console_write_entry port m w0)).w.ring) ∧
    ((wrun C env n (console_write_entry port m w0)).pc = .store →
      pending (wrun C env n (console_write_entry port m w0)).w.ring < C ∧
      deref (wrun C env n (console_write_entry port m w0)).message ≠ 0 ∧
      MASK_XENCONS_IDX (wrun C env n (console_write_entry port m w0)).w.ring.out_prod C =
        (wrun C env n (console_write_entry port m w0)).w.ring.out_prod % C ∧
      (wstep C (wrun C env n (console_write_entry port m w0))).pc = .incr ∧
      (wstep C (wrun C env n (console_write_entry port m w0))).w.ring.out =
        (wrun C env n (console_write_entry port m w0)).w.ring.out.set
          (MASK_XENCONS_IDX (wrun C env n (console_write_entry port m w0)).w.ring.out_prod C)
          (deref (wrun C env n (console_write_entry port m w0)).message) ∧
      (wstep C (wrun C env n (console_write_entry port m w0))).w.ring.out_prod =
        (wrun C env n (console_write_entry port m w0)).w.ring.out_prod) ∧
    ((wrun C env n (console_write_entry port m w0)).pc = .incr →
      (wrun C env n (console_write_entry port m w0)).w.ring.out.getD
          (MASK_XENCONS_IDX (wrun C env n (console_write_entry port m w0)).w.ring.out_prod C)
          0 =
        deref (wrun C env n (console_write_entry port m w0)).message ∧
      (wstep C (wrun C env n (console_write_entry port m w0))).pc = .head ∧
      (wstep C (wrun C env n (console_write_entry port m w0))).w.ring.out_prod =
        ((wrun C env n (console_write_entry port m w0)).w.ring.out_prod + 1) % IDX_MOD ∧
      (wstep C (wrun C env n (console_write_entry port m w0))).w.ring.out =
        (wrun C env n (console_write_entry port m w0)).w.ring.out) := by
  have hi0 : WInv C (console_write_entry port m w0) := ⟨hwf, h0, trivial⟩
  have hs := wrun_stream hC env _ hi0 n
  have hn := wrun_inv hC env _ hi0 n
  refine ⟨?_, ?_, ?_⟩
  · have := content_slice _ _ _ _ hs
    rw [content_length] at this
    exact this
  · intro hpc
    have hat := hn.2.2
    rw [hpc] at hat
    have e := wstep_store hC _ hpc hn.1.1
    rw [mask_eq_mod hC]
    refine ⟨hat.2, hat.1, rfl, ?_, ?_, ?_⟩ <;> rw [e]
  · intro hpc
    have hat := hn.2.2
    rw [hpc] at hat
    rw [mask_eq_mod hC]
    refine ⟨hat.2.2, ?_, ?_, ?_⟩ <;> (unfold wstep; simp only [hpc])

/-- C13, witness: `console_write("HELLOWORLD")` on the ring of capacity 8
holding `"abc"` against a consumer taking a step every third round, after 40
rounds. -/
theorem push_step_witness :
    SizeOK 8 ∧ RingWF 8 world8abc.ring ∧ pending world8abc.ring ≤ 8 ∧
    content 8 (wrun 8 (fun i _ => if i % 3 = 0 then 1 else 0) 40
        (console_write_entry 7 HELLOWORLD world8abc)).w.ring =
      ((world8abc.seen ++ content 8 world8abc.ring ++ cstr HELLOWORLD).drop
        (wrun 8 (fun i _ => if i % 3 = 0 then 1 else 0) 40
          (console_write_entry 7 HELLOWORLD world8abc)).w.seen.length).take
        (pending (wrun 8 (fun i _ => if i % 3 = 0 then 1 else 0) 40
          (console_write_entry 7 HELLOWORLD world8abc)).w.ring) :=
  ⟨⟨3, by decide, by decide⟩, ⟨rfl, by decide, by decide⟩, by decide,
    (push_step 8 ⟨3, by decide, by decide⟩ (fun i _ => if i % 3 = 0 then 1 else 0) 7
      HELLOWORLD world8abc ⟨rfl, by decide, by decide⟩ (by decide) 40).1⟩

/-- C14.  In a call of `console_write` made after `console_init`, against
any consumer: every notification sent carries the channel id bound by
`console_init`; a poll iteration that computes `pending ≥ C` sends exactly
one notification before the counters are read again; and from the loop test
that finds the end of the message, after the last increment of `out_prod`,
exactly one more notification is sent before the function returns, and none
after. -/
theorem notify_blocked (C : Nat) (env : Nat → WriteCfg → Nat)
    (machine_to_phys_mapping : Nat → Nat) (text : Nat) (start : start_info) (w : World)
    (m : List Nat) (w0 : World) (n : Nat) :
    (∃ k, (wrun C env n (console_write_entry
          (console_init machine_to_phys_mapping text start w).2.1.console_evt m w0)).w.sent =
        w0.sent ++ List.replicate k start.evtchn) ∧
    ((wrun C env n (console_write_entry
          (console_init machine_to_phys_mapping text start w).2.1.console_evt m w0)).pc = .poll →
      C ≤ pending (wrun C env n (console_write_entry
          (console_init machine_to_phys_mapping text start w).2.1.console_evt m w0)).w.ring →
      (wrun C env (n + 1) (console_write_entry
          (console_init machine_to_phys_mapping text start w).2.1.console_evt m w0)).pc = .send ∧
      (wrun C env (n + 1) (console_write_entry
          (console_init machine_to_phys_mapping text start w).2.1.console_evt m w0)).w.sent =
        (wrun C env n (console_write_entry
          (console_init machine_to_phys_mapping text start w).2.1.console_evt m w0)).w.sent ∧
      (wrun C env (n + 2) (console_write_entry
          (console_init machine_to_phys_mapping text start w).2.1.console_evt m w0)).pc = .check ∧
      (wrun C env (n + 2) (console_write_entry
          (console_init machine_to_phys_mapping text start w).2.1.console_evt m w0)).w.sent =
        (wrun C env n (console_write_entry
          (console_init machine_to_phys_mapping text start w).2.1.console_evt m w0)).w.sent ++
          [start.evtchn] ∧
      (wrun C env (n + 3) (console_write_entry
          (console_init machine_to_phys_mapping text start w).2.1.console_evt m w0)).pc = .poll ∧
      (wrun C env (n + 3) (console_write_entry
          (console_init machine_to_phys_mapping text start w).2.1.console_evt m w0)).w.sent =
        (wrun C env n (console_write_entry
          (console_init machine_to_phys_mapping text start w).2.1.console_evt m w0)).w.sent ++
          [start.evtchn]) ∧
    ((wrun C env n (console_write_entry
          (console_init machine_to_phys_mapping text start w).2.1.console_evt m w0)).pc = .head →
      deref (wrun C env n (console_write_entry
          (console_init machine_to_phys_mapping text start w).2.1.console_evt m w0)).message = 0 →
      (wrun C env (n + 1) (console_write_entry
          (console_init machine_to_phys_mapping text start w).2.1.console_evt m w0)).pc = .final ∧
      (wrun C env (n + 1) (console_write_entry
          (console_init machine_to_phys_mapping text start w).2.1.console_evt m w0)).w.sent =
        (wrun C env n (console_write_entry
          (console_init machine_to_phys_mapping text start w).2.1.console_evt m w0)).w.sent ∧
      ∀ k, (wrun C env (n + 2 + k) (console_write_entry
            (console_init machine_to_phys_mapping text start w).2.1.console_evt m w0)).pc =
          .done ∧
        (wrun C env (n + 2 + k) (console_write_entry
            (console_init machine_to_phys_mapping text start w).2.1.console_evt m w0)).w.sent =
          (wrun C env n (console_write_entry
            (console_init machine_to_phys_mapping text start w).2.1.console_evt m w0)).w.sent ++
            [start.evtchn]) := by
  have hport : (console_init machine_to_phys_mapping text start w).2.1.console_evt =
      start.evtchn := rfl
  rw [hport]
  generalize hc0 : console_write_entry start.evtchn m w0 = c0
  have hp0 : c0.port = start.evtchn := by rw [← hc0]; rfl
  have hs0 : c0.w.sent = w0.sent := by rw [← hc0]; rfl
  have hp : ∀ i, (wrun C env i c0).port = start.evtchn := fun i =>
    ((wrun_frame C env c0 i).2.2.2.2).trans hp0
  have e1 : ∀ i, wrun C env (i + 1) c0 =
      wround C (env i (wrun C env i c0)) (wrun C env i c0) := fun _ => rfl
  refine ⟨?_, ?_, ?_⟩
  · obtain ⟨k, hk⟩ := wrun_sent_port C env c0 n
    exact ⟨k, by rw [hk, hp0, hs0]⟩
  · intro hpc hfull
    obtain ⟨a1, a2, a3⟩ := wstep_at_poll C _ hpc
    have b1 : (wrun C env (n + 1) c0).pc = .send := by rw [e1, wround_pc, a1]
    have b2 : (wrun C env (n + 1) c0).data = pending (wrun C env n c0).w.ring := by
      rw [e1, wround_data, a2]
    have b3 : (wrun C env (n + 1) c0).w.sent = (wrun C env n c0).w.sent := by
      rw [e1, wround_sent, a3]
    obtain ⟨c1, c2, c3⟩ := wstep_at_send C _ b1
    have d1 : (wrun C env (n + 2) c0).pc = .check := by rw [e1 (n + 1), wround_pc, c1]
    have d2 : (wrun C env (n + 2) c0).data = pending (wrun C env n c0).w.ring := by
      rw [e1 (n + 1), wround_data, c2, b2]
    have d3 : (wrun C env (n + 2) c0).w.sent = (wrun C env n c0).w.sent ++ [start.evtchn] := by
      rw [e1 (n + 1), wround_sent, c3, b3, hp]
    obtain ⟨f1, f2⟩ := wstep_at_check_full C _ d1 (by rw [d2]; exact hfull)
    have g1 : (wrun C env (n + 3) c0).pc = .poll := by rw [e1 (n + 2), wround_pc, f1]
    have g2 : (wrun C env (n + 3) c0).w.sent = (wrun C env n c0).w.sent ++ [start.evtchn] := by
      rw [e1 (n + 2), wround_sent, f2, d3]
    exact ⟨b1, b3, d1, d3, g1, g2⟩
  · intro hpc hz
    obtain ⟨a1, a2⟩ := wstep_at_end C _ hpc hz
    have b1 : (wrun C env (n + 1) c0).pc = .final := by rw [e1, wround_pc, a1]
    have b2 : (wrun C env (n + 1) c0).w.sent = (wrun C env n c0).w.sent := by
      rw [e1, wround_sent, a2]
    obtain ⟨c1, c2, _⟩ := wstep_at_final C _ b1
    have d1 : (wrun C env (n + 2) c0).pc = .done := by rw [e1 (n + 1), wround_pc, c1]
    have d2 : (wrun C env (n + 2) c0).w.sent = (wrun C env n c0).w.sent ++ [start.evtchn] := by
      rw [e1 (n + 1), wround_sent, c2, b2, hp]
    refine ⟨b1, b2, fun k => ?_⟩
    obtain ⟨h1, h2, _⟩ := wrun_after_done C env c0 (n + 2) d1 k
    exact ⟨h1, h2.trans d2⟩

/-- C14, witness: `console_write("HELLOWORLD")` on the empty ring of capacity
8 against a consumer that takes no step, after `console_init` has bound
channel 7: at round 49 the poll step finds the ring full, and three rounds
later one more notification has been sent on channel 7. -/
theorem notify_blocked_witness :
    (wrun 8 (fun _ _ => 0) 49 (console_write_entry
        (console_init (fun _ => 0) 0 { mfn := 1, evtchn := 7 } world8).2.1.console_evt
        HELLOWORLD world8)).pc = .poll ∧
    8 ≤ pending (wrun 8 (fun _ _ => 0) 49 (console_write_entry
        (console_init (fun _ => 0) 0 { mfn := 1, evtchn := 7 } world8).2.1.console_evt
        HELLOWORLD world8)).w.ring ∧
    (wrun 8 (fun _ _ => 0) (49 + 3) (console_write_entry
        (console_init (fun _ => 0) 0 { mfn := 1, evtchn := 7 } world8).2.1.console_evt
        HELLOWORLD world8)).w.sent =
      (wrun 8 (fun _ _ => 0) 49 (console_write_entry
        (console_init (fun _ => 0) 0 { mfn := 1, evtchn := 7 } world8).2.1.console_evt
        HELLOWORLD world8)).w.sent ++ [7] :=
  ⟨by decide, by decide,
    ((notify_blocked 8 (fun _ _ => 0) (fun _ => 0) 0 { mfn := 1, evtchn := 7 } world8
      HELLOWORLD world8 49).2.1 (by decide) (by decide)).2.2.2.2.2⟩

/-- C15.  No run of `console_write`, against any consumer and from any
configuration, changes the number of yields made, its full-ring wait
included: no step of `console_write` invokes the yield primitive.  No run of
`console_flush` changes the notifications sent: no step of `console_flush`
sends one.  `console_init` does neither, and the step of `console_flush` at
its yield point makes exactly one yield. -/
theorem primitives_disjoint (C : Nat) :
    (∀ (env : Nat → WriteCfg → Nat) (c0 : WriteCfg) (n : Nat),
      (wrun C env n c0).w.yields = c0.w.yields) ∧
    (∀ c : WriteCfg, (wstep C c).w.yields = c.w.yields) ∧
    (∀ (env : Nat → FlushCfg → Nat) (c0 : FlushCfg) (n : Nat),
      (frun C env n c0).w.sent = c0.w.sent) ∧
    (∀ c : FlushCfg, (fstep c).w.sent = c.w.sent) ∧
    (∀ (machine_to_phys_mapping : Nat → Nat) (text : Nat) (start : start_info) (w : World),
      (console_init machine_to_phys_mapping text start w).2.2.yields = w.yields ∧
      (console_init machine_to_phys_mapping text start w).2.2.sent = w.sent) ∧
    (∀ c : FlushCfg, c.pc = .sched → (fstep c).w.yields = c.w.yields + 1) :=
  ⟨fun env c0 n => (wrun_frame C env c0 n).1,
    fun c => (wstep_frame C c).1,
    fun env c0 n => (frun_frame C env c0 n).1,
    fun c => (fstep_world c).2.1,
    fun _ _ _ _ => ⟨rfl, rfl⟩,
    fun c hc => by unfold fstep; simp only [hc]⟩

/-- C16.  For a ring size `C` from 1 to `2 ^ 31` and every value of
`out_prod`, the index `ring_index = MASK_XENCONS_IDX(out_prod, out)`, as an
`int`, satisfies `0 ≤ ring_index < C`; so along any run of `console_write`
on a ring whose `out` has `C` cells the store is never out of range: the
fault state of the model is never reached. -/
theorem index_in_bounds (C : Nat) (hpos : 0 < C) (hle : C ≤ 2147483648) :
    (∀ p : Nat, 0 ≤ toInt32 (MASK_XENCONS_IDX p C : Nat) ∧
      toInt32 (MASK_XENCONS_IDX p C : Nat) < (C : Int)) ∧
    (∀ (env : Nat → WriteCfg → Nat) (port : Nat) (m : List Nat) (w0 : World) (n : Nat),
      w0.ring.out.length = C →
      (wrun C env n (console_write_entry port m w0)).pc ≠ .fault) := by
  constructor
  · intro p
    obtain ⟨h1, h2⟩ := ring_index_small hpos hle p
    rw [h1]
    exact ⟨Int.ofNat_nonneg _, by exact_mod_cast h2⟩
  · intro env port m w0 n hlen
    have hne : (console_write_entry port m w0).pc ≠ .fault := by
      simp [console_write_entry]
    exact (wrun_nofault hpos hle env (console_write_entry port m w0) hlen hne n).1

/-- C16, witness: ring size 8, `out_prod = 2 ^ 32 - 1`, and a run of
`console_write("HELLOWORLD")` on the empty ring of capacity 8. -/
theorem index_in_bounds_witness :
    0 < 8 ∧ 8 ≤ 2147483648 ∧
    (0 ≤ toInt32 (MASK_XENCONS_IDX 4294967295 8 : Nat) ∧
      toInt32 (MASK_XENCONS_IDX 4294967295 8 : Nat) < ((8 : Nat) : Int)) ∧
    (wrun 8 (fun _ _ => 1) 62 (console_write_entry 7 HELLOWORLD world8)).pc ≠ .fault :=
  ⟨by decide, by decide, (index_in_bounds 8 (by decide) (by decide)).1 4294967295,
    (index_in_bounds 8 (by decide) (by decide)).2 (fun _ _ => 1) 7 HELLOWORLD world8 62 rfl⟩

/-- C17.  With `out_prod` and `out_cons` the values modulo `2 ^ 32` of true
counters `P` and `Q`, and the ring size `C` a power of two (up to `2 ^ 31`,
which divides `2 ^ 32`): whenever the true number of unconsumed bytes
`P - Q` is at most `C`, the computed `pending` and the `data` read by the
poll step equal it; the offset `out_prod & (C - 1)` of the store is
`P mod C`; and after the increment `out_prod` is `P + 1` modulo `2 ^ 32` and
its offset is the next slot of the ring, also when `out_prod` wraps. -/
theorem wrap_safe_write (C : Nat) (hC : SizeOK C) (P Q : Nat) (hQP : Q ≤ P)
    (hcap : P - Q ≤ C) (c : WriteCfg) (hp : c.w.ring.out_prod = P % IDX_MOD)
    (hq : c.w.ring.out_cons = Q % IDX_MOD) :
    pending c.w.ring = P - Q ∧
    MASK_XENCONS_IDX c.w.ring.out_prod C = P % C ∧
    (c.pc = .poll → (wstep C c).data = P - Q) ∧
    (c.pc = .store → c.w.ring.out.length = C →
      (wstep C c).w.ring.out = c.w.ring.out.set (P % C) (deref c.message)) ∧
    (c.pc = .incr →
      (wstep C c).w.ring.out_prod = (P + 1) % IDX_MOD ∧
      MASK_XENCONS_IDX (wstep C c).w.ring.out_prod C = (P % C + 1) % C) := by
  have hpend := pending_true_count hC P Q hQP hcap c.w.ring hp hq
  have hslot : c.w.ring.out_prod % C = P % C := by
    rw [hp, Nat.mod_mod_of_dvd _ hC.dvd]
  refine ⟨hpend, by rw [mask_eq_mod hC, hslot], ?_, ?_, ?_⟩
  · intro hpc
    rw [(wstep_at_poll C c hpc).2.1, hpend]
  · intro hpc hlen
    rw [wstep_store hC c hpc hlen, hslot]
  · intro hpc
    have e : (wstep C c).w.ring.out_prod = (c.w.ring.out_prod + 1) % IDX_MOD := by
      unfold wstep; simp only [hpc]
    rw [mask_eq_mod hC, e, hp]
    refine ⟨?_, succ_mod_slot hC P⟩
    simp only [IDX_MOD]
    omega

/-- C17, witness: capacity 8, true counters `P = 2 ^ 32` and
`Q = 2 ^ 32 - 3`, so that `out_prod = 0` has wrapped and `out_cons` has not;
and `console_write("abc")` on the empty ring whose counters are
`2 ^ 32 - 1` puts its bytes in the slots 7, 0 and 1. -/
theorem wrap_safe_write_witness :
    SizeOK 8 ∧ 4294967293 ≤ 4294967296 ∧ 4294967296 - 4294967293 ≤ 8 ∧
    pollWrapped.w.ring.out_prod = 4294967296 % IDX_MOD ∧
    pollWrapped.w.ring.out_cons = 4294967293 % IDX_MOD ∧
    (pending pollWrapped.w.ring = 4294967296 - 4294967293 ∧
      MASK_XENCONS_IDX pollWrapped.w.ring.out_prod 8 = 4294967296 % 8 ∧
      (pollWrapped.pc = .poll → (wstep 8 pollWrapped).data = 4294967296 - 4294967293)) ∧
    (wrun 8 (fun _ _ => 0) 20 (console_write_entry 7 [97, 98, 99] world8edge)).w.ring.out =
      [98, 99, 0, 0, 0, 0, 0, 97] ∧
    (wrun 8 (fun _ _ => 0) 20 (console_write_entry 7 [97, 98, 99] world8edge)).w.ring.out_prod =
      2 :=
  ⟨⟨3, by decide, by decide⟩, by decide, by decide, by decide, by decide,
    ⟨(wrap_safe_write 8 ⟨3, by decide, by decide⟩ 4294967296 4294967293 (by decide) (by decide)
        pollWrapped (by decide) (by decide)).1,
      (wrap_safe_write 8 ⟨3, by decide, by decide⟩ 4294967296 4294967293 (by decide) (by decide)
        pollWrapped (by decide) (by decide)).2.1,
      (wrap_safe_write 8 ⟨3, by decide, by decide⟩ 4294967296 4294967293 (by decide) (by decide)
        pollWrapped (by decide) (by decide)).2.2.1⟩,
    by decide, by decide⟩

/-- C18, the code at the failing input.  On the empty ring of capacity 8
whose counters are `2 ^ 32 - 1`, `console_write("abc")` against a consumer
that takes no step returns with `out_prod = 2` wrapped, `out_cons =
2 ^ 32 - 1` not wrapped and three bytes unconsumed, the capacity invariant
holding modulo `2 ^ 32`; `console_flush` called in that state finds
`out_cons < out_prod` false and has returned after its first step, without a
yield, with the three bytes still unconsumed. -/
theorem flush_wrap_early :
    RingWF 8 world8edge.ring ∧ pending world8edge.ring ≤ 8 ∧
    (wrun 8 (fun _ _ => 0) 20 (console_write_entry 7 [97, 98, 99] world8edge)).pc = .done ∧
    (wrun 8 (fun _ _ => 0) 20 (console_write_entry 7 [97, 98, 99] world8edge)).w.ring.out_prod =
      2 ∧
    (wrun 8 (fun _ _ => 0) 20 (console_write_entry 7 [97, 98, 99] world8edge)).w.ring.out_cons =
      4294967295 ∧
    pending (wrun 8 (fun _ _ => 0) 20
      (console_write_entry 7 [97, 98, 99] world8edge)).w.ring = 3 ∧
    (frun 8 (fun _ _ => 0) 1 (console_flush_entry
      (wrun 8 (fun _ _ => 0) 20 (console_write_entry 7 [97, 98, 99] world8edge)).w)).pc =
      .done ∧
    (frun 8 (fun _ _ => 0) 1 (console_flush_entry
      (wrun 8 (fun _ _ => 0) 20 (console_write_entry 7 [97, 98, 99] world8edge)).w)).w.yields =
      0 ∧
    pending (frun 8 (fun _ _ => 0) 1 (console_flush_entry
      (wrun 8 (fun _ _ => 0) 20 (console_write_entry 7 [97, 98, 99] world8edge)).w)).w.ring =
      3 ∧
    content 8 (frun 8 (fun _ _ => 0) 1 (console_flush_entry
      (wrun 8 (fun _ _ => 0) 20 (console_write_entry 7 [97, 98, 99] world8edge)).w)).w.ring =
      [97, 98, 99] := by
  refine ⟨⟨rfl, by decide, by decide⟩, ?_⟩
  decide

end Console
